import Mathlib

/-!
Shallow embedding of the geecache repository (github.com/CodingCaius/geecache)
and proofs about the claims C1 - C10.

Conventions used throughout this development:
* Go `time.Time` values are modelled as `Int` nanoseconds since the epoch,
  with `0` standing for the zero `time.Time` (Go's `IsZero`).
* Go byte slices and strings inside `ByteView` are modelled as `List Nat`
  (one element per byte).
* Go maps are modelled as association lists with unique keys; `aset` and
  `adel` below keep the key set duplicate-free, matching map semantics.
* Go `int64` division truncates towards zero, which is `Int.tdiv` in Lean
  (Lean's `/` on `Int` is E-division and does not match Go).
* Side-effecting callbacks (`lru.Cache.OnEvicted`) are modelled by returning
  the list of `(key, value)` pairs the callback was invoked on, in call
  order; the caller of the LRU then folds that log, exactly as the Go
  closure in `cache.add` mutates `nbytes`/`nevict`.
-/

/-- Association list lookup, modelling a Go map read (`v, ok := m[k]`). -/
def alookup {κ : Type} {α : Type} [DecidableEq κ] (k : κ) : List (κ × α) → Option α
  | [] => none
  | (k', v) :: rest => if k = k' then some v else alookup k rest

/-- Removal of a key's binding, modelling Go `delete(m, k)`.  A Go map never
holds two bindings for one key, so filtering every binding of `k` is exact. -/
def adel {κ : Type} {α : Type} [DecidableEq κ] (k : κ) (m : List (κ × α)) : List (κ × α) :=
  m.filter (fun p => decide (p.1 ≠ k))

/-- Map write `m[k] = v`: overwrite any existing binding of `k`. -/
def aset {κ : Type} {α : Type} [DecidableEq κ] (k : κ) (v : α) (m : List (κ × α)) :
    List (κ × α) :=
  (k, v) :: adel k m

theorem alookup_adel_self {κ α : Type} [DecidableEq κ] (k : κ) (m : List (κ × α)) :
    alookup k (adel k m) = none := by
  induction m with
  | nil => rfl
  | cons p rest ih =>
      by_cases h : p.1 = k
      · simpa [adel, List.filter, h] using ih
      · simpa [adel, List.filter, h, alookup, Ne.symm h] using ih

theorem alookup_adel_ne {κ α : Type} [DecidableEq κ] (k k' : κ) (m : List (κ × α))
    (h : k ≠ k') : alookup k (adel k' m) = alookup k m := by
  induction m with
  | nil => rfl
  | cons p rest ih =>
      simp only [adel, List.filter_cons]
      by_cases hp : p.1 = k'
      · simp only [hp, ne_eq, decide_not, decide_True, Bool.not_true, Bool.false_eq_true,
          if_false, alookup, h, if_false]
        simpa [adel] using ih
      · simp only [ne_eq, hp, decide_False, decide_not, Bool.not_false, if_true, alookup]
        by_cases hk : k = p.1
        · simp [hk]
        · simp only [hk, if_false]
          simpa [adel] using ih

theorem alookup_aset_self {κ α : Type} [DecidableEq κ] (k : κ) (v : α) (m : List (κ × α)) :
    alookup k (aset k v m) = some v := by
  simp [aset, alookup]

theorem alookup_aset_ne {κ α : Type} [DecidableEq κ] (k k' : κ) (v : α) (m : List (κ × α))
    (h : k ≠ k') : alookup k (aset k' v m) = alookup k m := by
  simp [aset, alookup, h]
  exact alookup_adel_ne k k' m h

theorem mem_adel {κ α : Type} [DecidableEq κ] (k : κ) (p : κ × α) (m : List (κ × α)) :
    p ∈ adel k m ↔ p ∈ m ∧ p.1 ≠ k := by
  simp [adel, List.mem_filter]

theorem mem_aset {κ α : Type} [DecidableEq κ] (k : κ) (v : α) (p : κ × α) (m : List (κ × α)) :
    p ∈ aset k v m ↔ p = (k, v) ∨ (p ∈ m ∧ p.1 ≠ k) := by
  simp [aset, mem_adel]

theorem alookup_mem {κ α : Type} [DecidableEq κ] (k : κ) (v : α) (m : List (κ × α))
    (h : alookup k m = some v) : (k, v) ∈ m := by
  induction m with
  | nil => simp [alookup] at h
  | cons p rest ih =>
      cases p with
      | mk a b =>
        by_cases hk : k = a
        · simp only [alookup, hk, if_true, Option.some.injEq] at h
          subst hk
          subst h
          exact List.mem_cons_self _ _
        · simp only [alookup, hk, if_false] at h
          exact List.mem_cons_of_mem _ (ih h)

theorem keys_nodup_adel {κ α : Type} [DecidableEq κ] (k : κ) (m : List (κ × α))
    (h : (m.map Prod.fst).Nodup) : ((adel k m).map Prod.fst).Nodup := by
  have hsub : (adel k m).Sublist m := List.filter_sublist m
  exact (hsub.map Prod.fst).nodup h

theorem keys_nodup_aset {κ α : Type} [DecidableEq κ] (k : κ) (v : α) (m : List (κ × α))
    (h : (m.map Prod.fst).Nodup) : ((aset k v m).map Prod.fst).Nodup := by
  refine List.Nodup.cons ?_ (keys_nodup_adel k m h)
  intro hmem
  simp only [List.mem_map] at hmem
  obtain ⟨p, hp, hfst⟩ := hmem
  exact ((mem_adel k p m).1 hp).2 hfst

/-! ## ByteView (byteview.go)

The Go struct holds either a byte slice `b` (used when non-nil) or a string
`s`, plus an expiry time `e`.  `b : Option (List Nat)` with `none` for the
nil slice; `s : List Nat` for the string's bytes; `e : Int` nanoseconds. -/

structure ByteView where
  b : Option (List Nat)
  s : List Nat
  e : Int
  deriving DecidableEq, Repr

/-- The zero value `ByteView{}` of the Go struct. -/
def ByteView.zero : ByteView := ⟨none, [], 0⟩

/-- Expire returns the expiry time associated with the view. -/
def ByteView.Expire (v : ByteView) : Int := v.e

/-- Len returns the view's length. -/
def ByteView.Len (v : ByteView) : Nat :=
  match v.b with
  | some bs => bs.length
  | none => v.s.length

/-- Slice slices the view between the provided `lo` and `hi` indices.  The Go
code builds `ByteView{b: v.b[from:to]}` (or the `s` analogue), so the new
view's expiry field is the zero time. -/
def ByteView.Slice (v : ByteView) (lo hi : Nat) : ByteView :=
  match v.b with
  | some bs => ⟨some ((bs.take hi).drop lo), [], 0⟩
  | none => ⟨none, (v.s.take hi).drop lo, 0⟩

/-- SliceFrom slices the view from the provided index until the end. -/
def ByteView.SliceFrom (v : ByteView) (lo : Nat) : ByteView :=
  match v.b with
  | some bs => ⟨some (bs.drop lo), [], 0⟩
  | none => ⟨none, v.s.drop lo, 0⟩

/-- C10: for every ByteView with a non-zero expiry time, the views returned
by Slice and SliceFrom carry the zero expiry time - slicing silently
discards the expiry and the derived views never expire. -/
theorem byteview_slice_drops_expiry (v : ByteView) (lo hi : Nat) (h : v.e ≠ 0) :
    (v.Slice lo hi).Expire = 0 ∧ (v.SliceFrom lo).Expire = 0 := by
  constructor
  · unfold ByteView.Slice ByteView.Expire
    cases v.b <;> rfl
  · unfold ByteView.SliceFrom ByteView.Expire
    cases v.b <;> rfl

/-- Witness for C10 at a concrete expiring view. -/
theorem byteview_slice_drops_expiry_witness :
    (ByteView.mk (some [1, 2, 3]) [] 99).e ≠ 0 ∧
      ((ByteView.mk (some [1, 2, 3]) [] 99).Slice 0 2).Expire = 0 ∧
      ((ByteView.mk (some [1, 2, 3]) [] 99).SliceFrom 1).Expire = 0 :=
  ⟨by decide, byteview_slice_drops_expiry (ByteView.mk (some [1, 2, 3]) [] 99) 0 2 (by decide)⟩

/-! ## ConsistentHash (consistenthash part of src/geecache/peers.go)

`Map` holds a hash function, a replica count, the sorted ring `keys` and the
virtual-node-to-peer map `hashMap`.  The hash function is passed explicitly
to `chAdd`/`chGet` instead of being stored, so all definitions stay
executable and comparable. -/

structure CHMap where
  replicas : Nat
  keys : List Int
  hashMap : List (Int × String)
  deriving DecidableEq, Repr

/-- New creates a Map instance with an empty ring. -/
def chNew (replicas : Nat) : CHMap := ⟨replicas, [], []⟩

/-- Insertion of one element into a sorted list (used to model `sort.Ints`). -/
def insertSorted (x : Int) : List Int → List Int
  | [] => [x]
  | y :: rest => if x ≤ y then x :: y :: rest else y :: insertSorted x rest

/-- Sorting of the ring hashes, modelling `sort.Ints(m.keys)`. -/
def sortInts : List Int → List Int
  | [] => []
  | x :: rest => insertSorted x (sortInts rest)

/-- One loop iteration of `Add`: place virtual node `i` of peer `key` by
hashing `strconv.Itoa(i) + key`, append the hash to the ring and record the
peer in `hashMap`. -/
def chAddVirtual (hash : String → Int) (key : String) (a : CHMap) (i : Nat) : CHMap :=
  let h := hash (toString i ++ key)
  { a with keys := a.keys ++ [h], hashMap := aset h key a.hashMap }

/-- The inner loop of `Add` for a single real peer: `replicas` virtual nodes. -/
def chAddPeer (hash : String → Int) (a : CHMap) (key : String) : CHMap :=
  (List.range a.replicas).foldl (chAddVirtual hash key) a

/-- Add places every peer's virtual nodes on the ring, then sorts the ring. -/
def chAdd (hash : String → Int) (m : CHMap) (peerKeys : List String) : CHMap :=
  let m' := peerKeys.foldl (chAddPeer hash) m
  { m' with keys := sortInts m'.keys }

/-- Get returns the peer owning `key`: empty ring gives the empty string;
otherwise `sort.Search` finds the first ring hash that is at least
`hash key` (`List.findIdx` returns the first satisfying index, or the
length when none is), and the wrap-around is `idx % len`.  A missing
`hashMap` entry yields Go's zero string. -/
def chGet (hash : String → Int) (m : CHMap) (key : String) : String :=
  if m.keys.length = 0 then ""
  else
    let h := hash key
    let idx := m.keys.findIdx (fun k => decide (h ≤ k))
    match alookup (m.keys.getD (idx % m.keys.length) 0) m.hashMap with
    | some peer => peer
    | none => ""

/-- Well-formedness of a ring: the ring is sorted and every ring hash maps to
some peer of `allPeers`.  `chNew` establishes it and `chAdd` preserves it. -/
def CHWf (allPeers : List String) (m : CHMap) : Prop :=
  m.keys.Sorted (· ≤ ·) ∧ ∀ k ∈ m.keys, ∃ p ∈ allPeers, alookup k m.hashMap = some p

/-- The contents half of `CHWf`, threaded through the `Add` folds. -/
def CHContents (allPeers : List String) (a : CHMap) : Prop :=
  ∀ k ∈ a.keys, ∃ p ∈ allPeers, alookup k a.hashMap = some p

theorem chContents_mono {p1 p2 : List String} {a : CHMap} (hsub : ∀ x ∈ p1, x ∈ p2)
    (h : CHContents p1 a) : CHContents p2 a := by
  intro k hk
  obtain ⟨p, hp, hl⟩ := h k hk
  exact ⟨p, hsub p hp, hl⟩

theorem chAddVirtual_contents {allPeers : List String} {key : String}
    (hkey : key ∈ allPeers) (hash : String → Int) (a : CHMap) (i : Nat)
    (h : CHContents allPeers a) : CHContents allPeers (chAddVirtual hash key a i) := by
  intro k hk
  simp only [chAddVirtual, List.mem_append, List.mem_singleton] at hk
  by_cases he : k = hash (toString i ++ key)
  · subst he
    exact ⟨key, hkey, by simp [chAddVirtual, alookup_aset_self]⟩
  · rcases hk with hk | hk
    · obtain ⟨p, hp, hl⟩ := h k hk
      exact ⟨p, hp, by simpa [chAddVirtual, alookup_aset_ne _ _ _ _ he] using hl⟩
    · exact absurd hk he

theorem chAddVirtual_foldl_contents {allPeers : List String} {key : String}
    (hkey : key ∈ allPeers) (hash : String → Int) (l : List Nat) (a : CHMap)
    (h : CHContents allPeers a) :
    CHContents allPeers (l.foldl (chAddVirtual hash key) a) := by
  induction l generalizing a with
  | nil => exact h
  | cons i rest ih => exact ih _ (chAddVirtual_contents hkey hash a i h)

theorem chAddPeer_foldl_contents {allPeers : List String} (hash : String → Int)
    (peerKeys : List String) (hsub : ∀ x ∈ peerKeys, x ∈ allPeers) (a : CHMap)
    (h : CHContents allPeers a) :
    CHContents allPeers (peerKeys.foldl (chAddPeer hash) a) := by
  induction peerKeys generalizing a with
  | nil => exact h
  | cons key rest ih =>
      refine ih (fun x hx => hsub x (List.mem_cons_of_mem _ hx)) _ ?_
      exact chAddVirtual_foldl_contents (hsub key (List.mem_cons_self _ _)) hash _ a h

theorem mem_insertSorted (x y : Int) (l : List Int) :
    y ∈ insertSorted x l ↔ y = x ∨ y ∈ l := by
  induction l with
  | nil => simp [insertSorted]
  | cons z rest ih =>
      by_cases h : x ≤ z
      · simp [insertSorted, h]
      · simp [insertSorted, h, ih]
        tauto

theorem insertSorted_sorted (x : Int) (l : List Int) (h : l.Sorted (· ≤ ·)) :
    (insertSorted x l).Sorted (· ≤ ·) := by
  induction l with
  | nil => simp [insertSorted]
  | cons z rest ih =>
      rw [List.sorted_cons] at h
      by_cases hx : x ≤ z
      · simp only [insertSorted, hx, if_true]
        refine List.sorted_cons.2 ⟨?_, List.sorted_cons.2 h⟩
        intro b hb
        rcases List.mem_cons.1 hb with hb | hb
        · exact hb ▸ hx
        · exact le_trans hx (h.1 b hb)
      · simp only [insertSorted, hx, if_false]
        refine List.sorted_cons.2 ⟨?_, ih h.2⟩
        intro b hb
        rcases (mem_insertSorted x b rest).1 hb with hb | hb
        · exact hb ▸ le_of_not_le hx
        · exact h.1 b hb

theorem mem_sortInts (y : Int) (l : List Int) : y ∈ sortInts l ↔ y ∈ l := by
  induction l with
  | nil => simp [sortInts]
  | cons x rest ih => simp [sortInts, mem_insertSorted, ih]

theorem sortInts_sorted (l : List Int) : (sortInts l).Sorted (· ≤ ·) := by
  induction l with
  | nil => simp [sortInts]
  | cons x rest ih => exact insertSorted_sorted x _ ih

theorem chNew_wf (replicas : Nat) : CHWf [] (chNew replicas) := by
  constructor
  · simp [chNew]
  · intro k hk
    simp [chNew] at hk

theorem chAdd_wf {oldPeers : List String} {m : CHMap} (hash : String → Int)
    (peerKeys : List String) (hwf : CHWf oldPeers m) :
    CHWf (oldPeers ++ peerKeys) (chAdd hash m peerKeys) := by
  constructor
  · exact sortInts_sorted _
  · intro k hk
    rw [show (chAdd hash m peerKeys).keys =
      sortInts (peerKeys.foldl (chAddPeer hash) m).keys from rfl, mem_sortInts] at hk
    have hc : CHContents (oldPeers ++ peerKeys) (peerKeys.foldl (chAddPeer hash) m) := by
      refine chAddPeer_foldl_contents hash peerKeys
        (fun x hx => List.mem_append.2 (Or.inr hx)) m ?_
      exact chContents_mono (fun x hx => List.mem_append.2 (Or.inl hx)) hwf.2
    exact hc k hk

theorem findIdx_of_filter_nil {α : Type} (p : α → Bool) (l : List α)
    (h : l.filter p = []) : l.findIdx p = l.length := by
  induction l with
  | nil => rfl
  | cons x rest ih =>
      by_cases hx : p x
      · simp [List.filter_cons, hx] at h
      · simp only [List.filter_cons, hx, if_false] at h
        simp [List.findIdx_cons, hx, ih h]

theorem findIdx_of_filter_cons {α : Type} (p : α → Bool) (l : List α) (t : α) (ts : List α)
    (h : l.filter p = t :: ts) :
    l.findIdx p < l.length ∧ ∀ d, l.getD (l.findIdx p) d = t := by
  induction l generalizing ts with
  | nil => simp [List.filter] at h
  | cons x rest ih =>
      by_cases hx : p x
      · simp [List.filter_cons, hx] at h
        obtain ⟨hxt, hrest⟩ := h
        subst hxt
        refine ⟨by simp [List.findIdx_cons, hx], fun d => ?_⟩
        simp [List.findIdx_cons, hx, List.getD_cons_zero]
      · simp [List.filter_cons, hx] at h
        obtain ⟨hlt, hg⟩ := ih ts h
        refine ⟨?_, fun d => ?_⟩
        · simpa [List.findIdx_cons, hx] using Nat.succ_lt_succ hlt
        · simpa [List.findIdx_cons, hx, List.getD_cons_succ] using hg d

/-- C9: Get on an empty ring returns the empty string; on a non-empty
well-formed ring, Get returns the peer recorded in `hashMap` for the ring
hash `t` that is either the smallest ring hash at least `hash key`, or - when
`hash key` exceeds every ring hash - the ring's smallest hash (the
wrap-around to index 0); in both cases the result is a peer that was added. -/
theorem consistenthash_get_owner (hash : String → Int) (allPeers : List String)
    (m : CHMap) (key : String) (hwf : CHWf allPeers m) :
    (m.keys = [] → chGet hash m key = "") ∧
    (m.keys ≠ [] →
      chGet hash m key ∈ allPeers ∧
      ∃ t ∈ m.keys, alookup t m.hashMap = some (chGet hash m key) ∧
        ((hash key ≤ t ∧ ∀ k ∈ m.keys, hash key ≤ k → t ≤ k) ∨
         ((∀ k ∈ m.keys, k < hash key) ∧ ∀ k ∈ m.keys, t ≤ k))) := by
  constructor
  · intro hnil
    simp [chGet, hnil]
  · intro hne
    have hlen : m.keys.length ≠ 0 := by simpa [List.length_eq_zero] using hne
    obtain ⟨hsorted, hmap⟩ := hwf
    -- the ring hash the source indexes: keys[findIdx % len]
    set p : Int → Bool := fun k => decide (hash key ≤ k) with hp
    have key_t : ∃ t, m.keys.getD (m.keys.findIdx p % m.keys.length) 0 = t ∧ t ∈ m.keys ∧
        ((hash key ≤ t ∧ ∀ k ∈ m.keys, hash key ≤ k → t ≤ k) ∨
         ((∀ k ∈ m.keys, k < hash key) ∧ ∀ k ∈ m.keys, t ≤ k)) := by
      cases hfil : m.keys.filter p with
      | nil =>
          obtain ⟨x, rest, hx⟩ := List.exists_cons_of_ne_nil hne
          have hidx : m.keys.findIdx p = m.keys.length := findIdx_of_filter_nil p _ hfil
          refine ⟨x, ?_, by simp [hx], Or.inr ⟨?_, ?_⟩⟩
          · rw [hx] at hidx ⊢
            simp [hidx, Nat.mod_self, List.getD_cons_zero]
          · intro k hk
            have : ¬ (hash key ≤ k) := by
              intro hle
              have : k ∈ m.keys.filter p := List.mem_filter.2 ⟨hk, by simp [hp, hle]⟩
              simp [hfil] at this
            exact lt_of_not_le this
          · intro k hk
            rw [hx] at hk hsorted
            rcases List.mem_cons.1 hk with hk | hk
            · exact hk ▸ le_refl x
            · exact (List.sorted_cons.1 hsorted).1 k hk
      | cons t ts =>
          obtain ⟨hlt, hg⟩ := findIdx_of_filter_cons p _ t ts hfil
          have ht_mem : t ∈ m.keys := by
            have : t ∈ m.keys.filter p := by simp [hfil]
            exact List.mem_of_mem_filter this
          have ht_ge : hash key ≤ t := by
            have : t ∈ m.keys.filter p := by simp [hfil]
            have := (List.mem_filter.1 this).2
            simpa [hp] using this
          refine ⟨t, ?_, ht_mem, Or.inl ⟨ht_ge, ?_⟩⟩
          · simpa [Nat.mod_eq_of_lt hlt] using hg 0
          · intro k hk hkge
            have hkfil : k ∈ m.keys.filter p := List.mem_filter.2 ⟨hk, by simp [hp, hkge]⟩
            rw [hfil] at hkfil
            have hfs : (m.keys.filter p).Sorted (· ≤ ·) := List.Pairwise.filter p hsorted
            rw [hfil] at hfs
            rcases List.mem_cons.1 hkfil with hk1 | hk1
            · exact hk1 ▸ le_refl t
            · exact (List.sorted_cons.1 hfs).1 k hk1
    obtain ⟨t, hgd, htm, hcase⟩ := key_t
    obtain ⟨pr, hpr, hlook⟩ := hmap t htm
    have hget : chGet hash m key = pr := by
      simp only [chGet, hlen, if_false]
      rw [hgd, hlook]
    refine ⟨hget ▸ hpr, t, htm, ?_, hcase⟩
    rw [hget, hlook]

instance (allPeers : List String) (m : CHMap) : Decidable (CHWf allPeers m) := by
  unfold CHWf
  infer_instance

/-- A concrete hash function for witnesses: the byte length of the string. -/
def hashW (s : String) : Int := Int.ofNat s.utf8ByteSize

/-- Concrete peers for the C9 witness. -/
def peersW : List String := ["A", "BB"]

/-- Concrete ring: one replica of each of the two peers. -/
def chMapW : CHMap := chAdd hashW (chNew 1) peersW

/-- Witness for C9: the concrete ring is well formed, and the theorem's
conclusion holds there for a key whose hash wraps past the end of the ring. -/
theorem consistenthash_get_owner_witness :
    CHWf ([] ++ peersW) chMapW ∧
    ((chMapW.keys = [] → chGet hashW chMapW "wwww" = "") ∧
     (chMapW.keys ≠ [] →
       chGet hashW chMapW "wwww" ∈ ([] ++ peersW) ∧
       ∃ t ∈ chMapW.keys, alookup t chMapW.hashMap = some (chGet hashW chMapW "wwww") ∧
         ((hashW "wwww" ≤ t ∧ ∀ k ∈ chMapW.keys, hashW "wwww" ≤ k → t ≤ k) ∨
          ((∀ k ∈ chMapW.keys, k < hashW "wwww") ∧ ∀ k ∈ chMapW.keys, t ≤ k)))) :=
  ⟨by decide, consistenthash_get_owner hashW ([] ++ peersW) chMapW "wwww" (by decide)⟩

/-! ## LRU (src/unnamed/part_001, package lru)

The Go `Cache` owns a doubly linked list `ll` (front = most recently used)
and a map from key to list element.  List elements are identified by a
freshly allocated `nid`, which models Go pointer identity: the map stores
node ids, and mutation through a map-held pointer is `llMutate` by id.  Every
operation returns, besides the new cache, the list of `(key, value)` pairs
that `OnEvicted` was called with, in call order. -/

structure LruNode (V : Type) where
  nid : Nat
  key : String
  value : V
  expire : Int
  deriving DecidableEq, Repr

structure LruCache (V : Type) where
  maxEntries : Nat
  ll : List (LruNode V)
  cacheMap : List (String × Nat)
  nextId : Nat
  deriving DecidableEq, Repr

/-- A fresh cache: models both `lru.New` and the zero-initialised
`&lru.Cache{...}` literal used by the cache wrapper (MaxEntries then 0). -/
def lruEmpty (V : Type) (maxEntries : Nat) : LruCache V := ⟨maxEntries, [], [], 0⟩

/-- Find the list element with a given id (dereferencing a stored pointer). -/
def llFindId {V : Type} (nid : Nat) (ll : List (LruNode V)) : Option (LruNode V) :=
  ll.find? (fun n => n.nid == nid)

/-- Unlink the (first) element with the given id, modelling `l.Remove(e)`. -/
def llRemoveId {V : Type} (nid : Nat) : List (LruNode V) → List (LruNode V)
  | [] => []
  | n :: rest => if n.nid = nid then rest else n :: llRemoveId nid rest

/-- Move the element with the given id to the front, `l.MoveToFront(e)`. -/
def llMoveToFront {V : Type} (nid : Nat) (ll : List (LruNode V)) : List (LruNode V) :=
  match llFindId nid ll with
  | none => ll
  | some n => n :: llRemoveId nid ll

/-- Assign `value`/`expire` through the pointer held by the map. -/
def llMutate {V : Type} (nid : Nat) (v : V) (e : Int) (ll : List (LruNode V)) :
    List (LruNode V) :=
  ll.map (fun n => if n.nid = nid then { n with value := v, expire := e } else n)

/-- removeElement: unlink the node from the list, delete its key's binding
from the map, and fire the eviction callback (the returned log entry). -/
def lruRemoveNode {V : Type} (c : LruCache V) (n : LruNode V) :
    LruCache V × List (String × V) :=
  ({ c with ll := llRemoveId n.nid c.ll, cacheMap := adel n.key c.cacheMap },
   [(n.key, n.value)])

/-- RemoveOldest removes the back of the list, if any. -/
def lruRemoveOldest {V : Type} (c : LruCache V) : LruCache V × List (String × V) :=
  match c.ll.getLast? with
  | none => (c, [])
  | some n => lruRemoveNode c n

/-- Remove removes the provided key from the cache. -/
def lruRemove {V : Type} (c : LruCache V) (key : String) :
    LruCache V × List (String × V) :=
  match alookup key c.cacheMap with
  | none => (c, [])
  | some nid =>
      match llFindId nid c.ll with
      | none => (c, [])
      | some n => lruRemoveNode c n

/-- Get looks the key up; an entry with non-zero expiry strictly before `now`
is removed (firing the callback) and reported as a miss; a live hit moves the
node to the front. -/
def lruGet {V : Type} (c : LruCache V) (key : String) (now : Int) :
    LruCache V × Option V × List (String × V) :=
  match alookup key c.cacheMap with
  | none => (c, none, [])
  | some nid =>
      match llFindId nid c.ll with
      | none => (c, none, [])
      | some n =>
          if n.expire ≠ 0 ∧ n.expire < now then
            let r := lruRemoveNode c n
            (r.1, none, r.2)
          else
            ({ c with ll := llMoveToFront nid c.ll }, some n.value, [])

/-- Add, translated faithfully from src/unnamed/part_001 lines 50-75.  The
present-key branch fires the eviction callback with the old value, moves the
node to the front and overwrites its value and expiry - and then, because
the source lacks a `return` there, control still falls through to the
unconditional `PushFront` that allocates a second node for the same key and
repoints the map at it. -/
def lruAdd {V : Type} (c : LruCache V) (key : String) (value : V) (expire : Int) :
    LruCache V × List (String × V) :=
  let r1 :=
    match alookup key c.cacheMap with
    | some nid =>
        match llFindId nid c.ll with
        | some n =>
            ({ c with ll := llMutate nid value expire (llMoveToFront nid c.ll) },
             [(key, n.value)])
        | none => (c, ([] : List (String × V)))
    | none => (c, ([] : List (String × V)))
  let c1 := r1.1
  let node : LruNode V := ⟨c1.nextId, key, value, expire⟩
  let c2 : LruCache V :=
    { c1 with ll := node :: c1.ll, cacheMap := aset key c1.nextId c1.cacheMap,
              nextId := c1.nextId + 1 }
  if c2.maxEntries ≠ 0 ∧ c2.ll.length > c2.maxEntries then
    let r2 := lruRemoveOldest c2
    (r2.1, r1.2 ++ r2.2)
  else (c2, r1.2)

/-- Len returns the number of items in the cache (the list's length). -/
def lruLen {V : Type} (c : LruCache V) : Nat := c.ll.length

/-- The state after Add("x", 1) followed by Add("x", 2) on a fresh cache. -/
def lruC3state : LruCache Int :=
  (lruAdd (lruAdd (lruEmpty Int 0) "x" 1 0).1 "x" 2 0).1

/-- C3 is violated by the code: after adding the same key twice, the linked
list holds two nodes for "x" (Len reports 2) while the map holds a single
entry, so the map keyset / list keyset bijection fails and Add on a present
key grew the list.  The missing `return` in the present-key branch of Add
contradicts the source's own comment that the push is for absent keys. -/
theorem lru_add_present_key_grows_list :
    lruLen lruC3state = 2 ∧ lruC3state.cacheMap.length = 1 ∧
      lruC3state.ll.map (fun n => n.key) = ["x", "x"] ∧
      lruC3state.cacheMap.map Prod.fst = ["x"] := by decide

/-! ## cache wrapper (src/unnamed/part_002, type `cache`)

The wrapper owns `nbytes` (sum of key and value sizes of live entries),
counters, and a lazily constructed LRU whose `OnEvicted` closure performs
`nbytes -= len(key) + value.Len(); nevict++`.  The closure's invocations are
the eviction logs returned by the LRU operations, folded by
`applyEvictLog`. -/

/-- The byte cost of one LRU node: `len(key) + value.Len()`. -/
def nodeSize (n : LruNode ByteView) : Int :=
  Int.ofNat n.key.utf8ByteSize + Int.ofNat n.value.Len

/-- Sum of the byte costs of all nodes of the linked list. -/
def llSum (ll : List (LruNode ByteView)) : Int := (ll.map nodeSize).sum

structure GCache where
  nbytes : Int
  lru : Option (LruCache ByteView)
  nhit : Int
  nget : Int
  nevict : Int
  deriving DecidableEq, Repr

/-- The zero value of the `cache` struct. -/
def gcEmpty : GCache := ⟨0, none, 0, 0, 0⟩

/-- Folding the `OnEvicted` closure over an eviction log. -/
def applyEvictLog (c : GCache) (log : List (String × ByteView)) : GCache :=
  log.foldl (fun acc p =>
    { acc with nbytes := acc.nbytes - (Int.ofNat p.1.utf8ByteSize + Int.ofNat p.2.Len),
               nevict := acc.nevict + 1 }) c

/-- add: lazily construct the LRU (MaxEntries stays 0), insert with the
value's expiry, then account the new entry's bytes.  The eviction callbacks
fired during `lru.Add` run before the final `nbytes +=`. -/
def cacheAdd (c : GCache) (key : String) (value : ByteView) : GCache :=
  let l0 := match c.lru with
    | none => lruEmpty ByteView 0
    | some l => l
  let r := lruAdd l0 key value value.Expire
  let c1 := applyEvictLog { c with lru := some r.1 } r.2
  { c1 with nbytes := c1.nbytes + (Int.ofNat key.utf8ByteSize + Int.ofNat value.Len) }

/-- get: count the access, consult the LRU (which may lazily evict an
expired entry), and count a hit. -/
def cacheGet (c : GCache) (key : String) (now : Int) : GCache × Option ByteView :=
  let c0 := { c with nget := c.nget + 1 }
  match c0.lru with
  | none => (c0, none)
  | some l =>
      let r := lruGet l key now
      let c1 := applyEvictLog { c0 with lru := some r.1 } r.2.2
      match r.2.1 with
      | none => (c1, none)
      | some v => ({ c1 with nhit := c1.nhit + 1 }, some v)

/-- remove: forward to the LRU and fold the eviction callback. -/
def cacheRemove (c : GCache) (key : String) : GCache :=
  match c.lru with
  | none => c
  | some l =>
      let r := lruRemove l key
      applyEvictLog { c with lru := some r.1 } r.2

/-- removeOldest: forward to the LRU and fold the eviction callback. -/
def cacheRemoveOldest (c : GCache) : GCache :=
  match c.lru with
  | none => c
  | some l =>
      let r := lruRemoveOldest l
      applyEvictLog { c with lru := some r.1 } r.2

/-- bytes: the current value of the `nbytes` counter. -/
def cacheBytesOf (c : GCache) : Int := c.nbytes

/-- itemsLocked: the number of list nodes of the LRU. -/
def cacheItems (c : GCache) : Nat :=
  match c.lru with
  | none => 0
  | some l => l.ll.length

/-- Sum of `len(key) + value.Len()` over the entries reachable through the
map, i.e. the entries a `get` can still see (live entries, map view). -/
def cacheMapLiveSum (c : GCache) : Int :=
  match c.lru with
  | none => 0
  | some l =>
      (l.cacheMap.map (fun p =>
        match llFindId p.2 l.ll with
        | some n => Int.ofNat p.1.utf8ByteSize + Int.ofNat n.value.Len
        | none => 0)).sum

/-- Sum of `len(key) + value.Len()` over all linked-list nodes. -/
def cacheListSum (c : GCache) : Int :=
  match c.lru with
  | none => 0
  | some l => llSum l.ll

/-- A ByteView wrapping a byte slice with no expiry. -/
def bvStr (bytes : List Nat) : ByteView := ⟨some bytes, [], 0⟩

def c4s1 : GCache := cacheAdd gcEmpty "x" (bvStr [10, 10])

def c4s2 : GCache := cacheAdd c4s1 "x" (bvStr [11, 11, 11])

def c4s3 : GCache := cacheAdd c4s2 "x" (bvStr [12])

def c4s4 : GCache := cacheRemoveOldest c4s3

def c4s5 : GCache := cacheAdd c4s4 "y" (bvStr [13])

/-- C4 is violated by the code: after the adds `x:"aa"`, `x:"bbb"`, `x:"c"`,
a `removeOldest` and the add `y:"d"`, the counter `nbytes` is 0, yet the sum
of `len(key)+value.Len()` over the live entries is 2 counted through the map
and 6 counted over the list nodes; `nbytes` is even negative (-2) right
after the `removeOldest`.  The duplicate list nodes created by `lru.Add` on
a present key make the eviction callback fire with sizes that no longer
match the live entries. -/
theorem shardedcache_nbytes_diverges :
    c4s4.nbytes = -2 ∧ c4s5.nbytes = 0 ∧
      cacheMapLiveSum c4s5 = 2 ∧ cacheListSum c4s5 = 6 := by decide

/-! ## Well-formedness of caches

`LruWf` captures the pointer structure the Go code maintains: node ids are
below the allocator bound and unique, and every map binding points at a list
node whose key is the binding's key.  `CacheWf` adds that `nbytes` never
exceeds the byte sum of the list nodes (the `OnEvicted` accounting can fall
behind the list because of the duplicate nodes, but never ahead), plus the
wrapper's invariant that it builds its LRUs with `MaxEntries = 0`. -/

def LruWf {V : Type} (l : LruCache V) : Prop :=
  (∀ n ∈ l.ll, n.nid < l.nextId) ∧
  (l.ll.map (fun n => n.nid)).Nodup ∧
  (∀ p ∈ l.cacheMap, ∃ n ∈ l.ll, n.nid = p.2 ∧ n.key = p.1)

def CacheWf (c : GCache) : Prop :=
  match c.lru with
  | none => c.nbytes ≤ 0
  | some l => l.maxEntries = 0 ∧ LruWf l ∧ c.nbytes ≤ llSum l.ll

instance {V : Type} (l : LruCache V) : Decidable (LruWf l) := by
  unfold LruWf
  infer_instance

instance (c : GCache) : Decidable (CacheWf c) :=
  match hm : c.lru with
  | none => decidable_of_iff (c.nbytes ≤ 0) (by unfold CacheWf; rw [hm])
  | some l =>
      decidable_of_iff (l.maxEntries = 0 ∧ LruWf l ∧ c.nbytes ≤ llSum l.ll)
        (by unfold CacheWf; rw [hm])

theorem llFindId_mem {V : Type} {nid : Nat} {ll : List (LruNode V)} {n : LruNode V}
    (h : llFindId nid ll = some n) : n ∈ ll ∧ n.nid = nid := by
  refine ⟨List.mem_of_find?_eq_some h, ?_⟩
  have := List.find?_some h
  simpa using this

theorem llRemoveId_subset {V : Type} {nid : Nat} {ll : List (LruNode V)} {m : LruNode V}
    (h : m ∈ llRemoveId nid ll) : m ∈ ll := by
  induction ll with
  | nil => simp [llRemoveId] at h
  | cons x rest ih =>
      by_cases hx : x.nid = nid
      · simp only [llRemoveId, hx, if_true] at h
        exact List.mem_cons_of_mem _ h
      · simp only [llRemoveId, hx, if_false] at h
        rcases List.mem_cons.1 h with h | h
        · exact h ▸ List.mem_cons_self _ _
        · exact List.mem_cons_of_mem _ (ih h)

theorem llRemoveId_perm {V : Type} {nid : Nat} {ll : List (LruNode V)} {n : LruNode V}
    (h : llFindId nid ll = some n) : (n :: llRemoveId nid ll).Perm ll := by
  induction ll with
  | nil => simp [llFindId] at h
  | cons x rest ih =>
      by_cases hx : x.nid = nid
      · have hfind : llFindId nid (x :: rest) = some x :=
          List.find?_cons_of_pos _ (by simpa using hx)
        rw [hfind] at h
        cases h
        simp only [llRemoveId, hx, if_true]
        exact List.Perm.refl _
      · have hfind : llFindId nid (x :: rest) = llFindId nid rest := by
          unfold llFindId
          exact List.find?_cons_of_neg _ (by simpa using hx)
        rw [hfind] at h
        simp only [llRemoveId, hx, if_false]
        exact List.Perm.trans (List.Perm.swap x n _) (List.Perm.cons x (ih h))

theorem llMutate_ids {V : Type} (nid : Nat) (v : V) (e : Int) (ll : List (LruNode V)) :
    (llMutate nid v e ll).map (fun n => n.nid) = ll.map (fun n => n.nid) := by
  induction ll with
  | nil => rfl
  | cons x rest ih =>
      by_cases hx : x.nid = nid
      · simp [llMutate, hx] at ih ⊢
        exact ih
      · simp [llMutate, hx] at ih ⊢
        exact ih

theorem llMutate_of_no_id {V : Type} (nid : Nat) (v : V) (e : Int) (ll : List (LruNode V))
    (h : ∀ m ∈ ll, m.nid ≠ nid) : llMutate nid v e ll = ll := by
  induction ll with
  | nil => rfl
  | cons x rest ih =>
      have hx : x.nid ≠ nid := h x (List.mem_cons_self _ _)
      simp only [llMutate, List.map_cons, hx, if_false]
      rw [show (rest.map fun n => if n.nid = nid then { n with value := v, expire := e } else n)
        = llMutate nid v e rest from rfl, ih (fun m hm => h m (List.mem_cons_of_mem _ hm))]

theorem node_eq_of_nodup_ids {V : Type} {ll : List (LruNode V)} {m n : LruNode V}
    (hnd : (ll.map (fun x => x.nid)).Nodup) (hm : m ∈ ll) (hn : n ∈ ll)
    (heq : m.nid = n.nid) : m = n :=
  List.inj_on_of_nodup_map hnd hm hn heq

theorem mem_llRemoveId_of_ne {V : Type} {nid : Nat} {ll : List (LruNode V)} {m : LruNode V}
    (hm : m ∈ ll) (hne : m.nid ≠ nid) : m ∈ llRemoveId nid ll := by
  induction ll with
  | nil => simp at hm
  | cons x rest ih =>
      by_cases hx : x.nid = nid
      · simp only [llRemoveId, hx, if_true]
        rcases List.mem_cons.1 hm with h | h
        · exact absurd (h ▸ hx) hne
        · exact h
      · simp only [llRemoveId, hx, if_false]
        rcases List.mem_cons.1 hm with h | h
        · exact h ▸ List.mem_cons_self _ _
        · exact List.mem_cons_of_mem _ (ih h)

theorem llFindId_of_mem_nodup {V : Type} {ll : List (LruNode V)} {n : LruNode V}
    (hnd : (ll.map (fun x => x.nid)).Nodup) (hn : n ∈ ll) :
    llFindId n.nid ll = some n := by
  rcases hfind : llFindId n.nid ll with _ | m
  · exfalso
    have := List.find?_eq_none.1 hfind n hn
    simp at this
  · obtain ⟨hm, hmid⟩ := llFindId_mem hfind
    exact congrArg some (node_eq_of_nodup_ids hnd hm hn hmid)

theorem lruRemoveNode_wf (l : LruCache ByteView) (n : LruNode ByteView)
    (hwf : LruWf l) (hn : n ∈ l.ll) :
    LruWf (lruRemoveNode l n).1 ∧
    (lruRemoveNode l n).1.ll.length + 1 = l.ll.length ∧
    llSum (lruRemoveNode l n).1.ll = llSum l.ll - nodeSize n ∧
    (lruRemoveNode l n).1.maxEntries = l.maxEntries ∧
    (lruRemoveNode l n).2 = [(n.key, n.value)] := by
  obtain ⟨hbound, hnd, hmap⟩ := hwf
  have hfind : llFindId n.nid l.ll = some n := llFindId_of_mem_nodup hnd hn
  have hperm : (n :: llRemoveId n.nid l.ll).Perm l.ll := llRemoveId_perm hfind
  refine ⟨⟨?_, ?_, ?_⟩, ?_, ?_, rfl, rfl⟩
  · intro m hm
    exact hbound m (llRemoveId_subset hm)
  · have hnd2 : ((n :: llRemoveId n.nid l.ll).map (fun x => x.nid)).Nodup :=
      ((hperm.map (fun x => x.nid)).nodup_iff).2 hnd
    exact (List.nodup_cons.1 (by simpa using hnd2)).2
  · intro p hp
    rw [show (lruRemoveNode l n).1.cacheMap = adel n.key l.cacheMap from rfl] at hp
    obtain ⟨hpm, hpk⟩ := (mem_adel _ _ _).1 hp
    obtain ⟨m, hm, hmid, hmk⟩ := hmap p hpm
    have hmn : m ≠ n := fun he => hpk (by rw [← hmk, he])
    have hid : m.nid ≠ n.nid := fun he => hmn (node_eq_of_nodup_ids hnd hm hn he)
    exact ⟨m, mem_llRemoveId_of_ne hm hid, hmid, hmk⟩
  · simpa using hperm.length_eq
  · have hs := (hperm.map nodeSize).sum_eq
    simp only [List.map_cons, List.sum_cons] at hs
    show llSum (llRemoveId n.nid l.ll) = llSum l.ll - nodeSize n
    unfold llSum
    omega

theorem cacheItems_zero_nbytes (c : GCache) (hwf : CacheWf c) (h : cacheItems c = 0) :
    c.nbytes ≤ 0 := by
  unfold CacheWf at hwf
  rcases hl : c.lru with _ | l
  · rw [hl] at hwf
    exact hwf
  · rw [hl] at hwf
    obtain ⟨-, -, hsum⟩ := hwf
    have hnil : l.ll = [] := by
      simpa [cacheItems, hl, List.length_eq_zero] using h
    simpa [llSum, hnil] using hsum

theorem cacheRemoveOldest_spec (c : GCache) (hwf : CacheWf c) (hne : cacheItems c ≠ 0) :
    CacheWf (cacheRemoveOldest c) ∧ cacheItems (cacheRemoveOldest c) + 1 = cacheItems c := by
  unfold CacheWf at hwf
  rcases hl : c.lru with _ | l
  · simp [cacheItems, hl] at hne
  · rw [hl] at hwf
    obtain ⟨hmax, hlwf, hsum⟩ := hwf
    have hllne : l.ll ≠ [] := by
      intro he
      simp [cacheItems, hl, he] at hne
    have hlast : l.ll.getLast? = some (l.ll.getLast hllne) :=
      List.getLast?_eq_getLast l.ll hllne
    set n := l.ll.getLast hllne with hn
    have hnmem : n ∈ l.ll := List.getLast_mem hllne
    obtain ⟨hwf', hlen, hsum', hmax', hlog⟩ := lruRemoveNode_wf l n hlwf hnmem
    have h1 : cacheRemoveOldest c
        = applyEvictLog { c with lru := some (lruRemoveOldest l).1 } (lruRemoveOldest l).2 := by
      unfold cacheRemoveOldest
      rw [hl]
    have h2 : lruRemoveOldest l = lruRemoveNode l n := by
      unfold lruRemoveOldest
      rw [hlast]
    rw [h1, h2, hlog]
    have happ : applyEvictLog { c with lru := some (lruRemoveNode l n).1 } [(n.key, n.value)]
        = { c with lru := some (lruRemoveNode l n).1,
                   nbytes := c.nbytes - (Int.ofNat n.key.utf8ByteSize + Int.ofNat n.value.Len),
                   nevict := c.nevict + 1 } := rfl
    rw [happ]
    constructor
    · unfold CacheWf
      refine ⟨by rw [hmax']; exact hmax, hwf', ?_⟩
      show c.nbytes - (Int.ofNat n.key.utf8ByteSize + Int.ofNat n.value.Len)
        ≤ llSum (lruRemoveNode l n).1.ll
      rw [hsum']
      unfold nodeSize
      omega
    · show (lruRemoveNode l n).1.ll.length + 1 = cacheItems c
      rw [hlen]
      simp [cacheItems, hl]

/-- Total `len(key) + value.Len()` cost of an eviction log. -/
def evictLogCost (log : List (String × ByteView)) : Int :=
  (log.map (fun p => Int.ofNat p.1.utf8ByteSize + Int.ofNat p.2.Len)).sum

theorem applyEvictLog_spec (c : GCache) (log : List (String × ByteView)) :
    (applyEvictLog c log).nbytes = c.nbytes - evictLogCost log ∧
    (applyEvictLog c log).lru = c.lru := by
  induction log generalizing c with
  | nil => simp [applyEvictLog, evictLogCost]
  | cons p rest ih =>
      have hstep : applyEvictLog c (p :: rest)
          = applyEvictLog { c with
              nbytes := c.nbytes - (Int.ofNat p.1.utf8ByteSize + Int.ofNat p.2.Len),
              nevict := c.nevict + 1 } rest := rfl
      rw [hstep]
      obtain ⟨h1, h2⟩ := ih { c with
        nbytes := c.nbytes - (Int.ofNat p.1.utf8ByteSize + Int.ofNat p.2.Len),
        nevict := c.nevict + 1 }
      refine ⟨?_, by simpa using h2⟩
      rw [h1]
      simp only [evictLogCost, List.map_cons, List.sum_cons]
      ring

theorem llMutate_mem_image {V : Type} (nid : Nat) (v : V) (e : Int) (ls : List (LruNode V))
    {m : LruNode V} (hm : m ∈ ls) :
    ∃ m2 ∈ llMutate nid v e ls, m2.nid = m.nid ∧ m2.key = m.key := by
  refine ⟨if m.nid = nid then { m with value := v, expire := e } else m, ?_, ?_, ?_⟩
  · exact List.mem_map_of_mem _ hm
  · by_cases h : m.nid = nid <;> simp [h]
  · by_cases h : m.nid = nid <;> simp [h]

theorem lruAdd_spec (l : LruCache ByteView) (key : String) (value : ByteView) (expire : Int)
    (hmax : l.maxEntries = 0) (hwf : LruWf l) :
    LruWf (lruAdd l key value expire).1 ∧
    (lruAdd l key value expire).1.maxEntries = 0 ∧
    llSum l.ll - evictLogCost (lruAdd l key value expire).2
        + (Int.ofNat key.utf8ByteSize + Int.ofNat value.Len)
      ≤ llSum (lruAdd l key value expire).1.ll := by
  obtain ⟨hbound, hnd, hmap⟩ := hwf
  rcases hlook : alookup key l.cacheMap with _ | nid
  · -- key absent: push a fresh node only
    have hres : lruAdd l key value expire =
        ({ maxEntries := l.maxEntries,
           ll := ⟨l.nextId, key, value, expire⟩ :: l.ll,
           cacheMap := aset key l.nextId l.cacheMap,
           nextId := l.nextId + 1 }, []) := by
      simp only [lruAdd, hlook]
      simp [hmax]
    rw [hres]
    refine ⟨⟨?_, ?_, ?_⟩, hmax, ?_⟩
    · intro m hm
      rcases List.mem_cons.1 hm with h | h
      · rw [h]
        exact Nat.lt_succ_self _
      · exact Nat.lt_succ_of_lt (hbound m h)
    · refine List.Nodup.cons ?_ hnd
      intro hcon
      simp only [List.mem_map] at hcon
      obtain ⟨m, hm, hid⟩ := hcon
      exact absurd (hid ▸ hbound m hm) (Nat.lt_irrefl _)
    · intro p hp
      rcases (mem_aset _ _ _ _).1 hp with h | ⟨hpm, hpk⟩
      · exact ⟨⟨l.nextId, key, value, expire⟩, List.mem_cons_self _ _, by rw [h], by rw [h]⟩
      · obtain ⟨m, hm, hmid, hmk⟩ := hmap p hpm
        exact ⟨m, List.mem_cons_of_mem _ hm, hmid, hmk⟩
    · have h2 : nodeSize (⟨l.nextId, key, value, expire⟩ : LruNode ByteView)
          = Int.ofNat key.utf8ByteSize + Int.ofNat value.Len := rfl
      simp only [llSum, List.map_cons, List.sum_cons, evictLogCost, List.map_nil,
        List.sum_nil]
      omega
  · -- key present
    rcases hfind : llFindId nid l.ll with _ | n
    · exfalso
      obtain ⟨m, hm, hmid, -⟩ := hmap (key, nid) (alookup_mem _ _ _ hlook)
      have := List.find?_eq_none.1 hfind m hm
      simp [hmid] at this
    · obtain ⟨hnmem, hnid⟩ := llFindId_mem hfind
      have hnkey : n.key = key := by
        obtain ⟨m, hm, hmid, hmk⟩ := hmap (key, nid) (alookup_mem _ _ _ hlook)
        have : m = n := node_eq_of_nodup_ids hnd hm hnmem (by rw [hmid, hnid])
        rw [← this, hmk]
      have hperm : (n :: llRemoveId nid l.ll).Perm l.ll := llRemoveId_perm hfind
      have hnd2 : ((n :: llRemoveId nid l.ll).map (fun x => x.nid)).Nodup :=
        ((hperm.map (fun x => x.nid)).nodup_iff).2 hnd
      have hno : ∀ m ∈ llRemoveId nid l.ll, m.nid ≠ nid := by
        have hnd3 := hnd2
        rw [List.map_cons] at hnd3
        have hhead := (List.nodup_cons.1 hnd3).1
        intro m hm he
        exact hhead (List.mem_map.2 ⟨m, hm, by rw [he, hnid]⟩)
      have hmove : llMoveToFront nid l.ll = n :: llRemoveId nid l.ll := by
        unfold llMoveToFront
        rw [hfind]
      have hmut : llMutate nid value expire (n :: llRemoveId nid l.ll)
          = { n with value := value, expire := expire } :: llRemoveId nid l.ll := by
        simp only [llMutate, List.map_cons, hnid, if_true]
        rw [show (llRemoveId nid l.ll).map
            (fun m => if m.nid = nid then { m with value := value, expire := expire } else m)
          = llMutate nid value expire (llRemoveId nid l.ll) from rfl]
        rw [llMutate_of_no_id nid value expire _ hno]
      have hres : lruAdd l key value expire =
          ({ maxEntries := l.maxEntries,
             ll := ⟨l.nextId, key, value, expire⟩ ::
               { n with value := value, expire := expire } :: llRemoveId nid l.ll,
             cacheMap := aset key l.nextId l.cacheMap,
             nextId := l.nextId + 1 }, [(key, n.value)]) := by
        simp only [lruAdd, hlook, hfind, hmove, hmut]
        simp [hmax]
      rw [hres]
      have hsums : nodeSize n + llSum (llRemoveId nid l.ll) = llSum l.ll := by
        have hs := (hperm.map nodeSize).sum_eq
        simpa [llSum] using hs
      refine ⟨⟨?_, ?_, ?_⟩, hmax, ?_⟩
      · intro m hm
        rcases List.mem_cons.1 hm with h | h
        · rw [h]
          exact Nat.lt_succ_self _
        · rcases List.mem_cons.1 h with h2 | h2
          · rw [h2]
            show n.nid < l.nextId + 1
            exact Nat.lt_succ_of_lt (hbound n hnmem)
          · exact Nat.lt_succ_of_lt (hbound m (llRemoveId_subset h2))
      · rw [List.map_cons]
        refine List.Nodup.cons ?_ (by simpa using hnd2)
        intro hcon
        simp only [List.map_cons, List.mem_cons, List.mem_map] at hcon
        rcases hcon with h | hcon
        · have hcontra : n.nid < l.nextId := hbound n hnmem
          rw [← h] at hcontra
          exact Nat.lt_irrefl _ hcontra
        · obtain ⟨m, hm, hid⟩ := hcon
          exact absurd (hid ▸ hbound m (llRemoveId_subset hm)) (Nat.lt_irrefl _)
      · intro p hp
        rcases (mem_aset _ _ _ _).1 hp with h | ⟨hpm, hpk⟩
        · exact ⟨⟨l.nextId, key, value, expire⟩, List.mem_cons_self _ _, by rw [h], by rw [h]⟩
        · obtain ⟨m, hm, hmid, hmk⟩ := hmap p hpm
          have hmn : m ≠ n := by
            intro he
            exact hpk (by rw [← hmk, he, hnkey])
          have hm2 : m ∈ n :: llRemoveId nid l.ll := hperm.mem_iff.2 hm
          rcases List.mem_cons.1 hm2 with h2 | h2
          · exact absurd h2 hmn
          · exact ⟨m, List.mem_cons_of_mem _ (List.mem_cons_of_mem _ h2), hmid, hmk⟩
      · simp only [llSum, List.map_cons, List.sum_cons, evictLogCost, List.map_nil,
          List.sum_nil]
        have h1 : nodeSize { n with value := value, expire := expire }
            = Int.ofNat key.utf8ByteSize + Int.ofNat value.Len := by
          unfold nodeSize
          rw [show ({ n with value := value, expire := expire } : LruNode ByteView).key
            = n.key from rfl, hnkey]
        have h2 : nodeSize (⟨l.nextId, key, value, expire⟩ : LruNode ByteView)
            = Int.ofNat key.utf8ByteSize + Int.ofNat value.Len := rfl
        have h3 : nodeSize n = Int.ofNat key.utf8ByteSize + Int.ofNat n.value.Len := by
          unfold nodeSize
          rw [hnkey]
        unfold llSum at hsums
        have hnn : (0 : Int) ≤ Int.ofNat key.utf8ByteSize + Int.ofNat value.Len :=
          add_nonneg (Int.ofNat_nonneg _) (Int.ofNat_nonneg _)
        omega

theorem cacheWf_of_some (c : GCache) (l : LruCache ByteView) (hl : c.lru = some l)
    (hmax : l.maxEntries = 0) (hwf : LruWf l) (hb : c.nbytes ≤ llSum l.ll) : CacheWf c := by
  unfold CacheWf
  rw [hl]
  exact ⟨hmax, hwf, hb⟩

theorem cacheAdd_wf (c : GCache) (key : String) (value : ByteView) (hwf : CacheWf c) :
    CacheWf (cacheAdd c key value) := by
  unfold CacheWf at hwf
  have hl0 : ∃ l0 : LruCache ByteView,
      (match c.lru with | none => lruEmpty ByteView 0 | some l => l) = l0 ∧
      l0.maxEntries = 0 ∧ LruWf l0 ∧ c.nbytes ≤ llSum l0.ll := by
    rcases hl : c.lru with _ | l
    · rw [hl] at hwf
      refine ⟨lruEmpty ByteView 0, rfl, rfl, ⟨?_, ?_, ?_⟩, ?_⟩
      · intro n hn
        simp [lruEmpty] at hn
      · simp [lruEmpty]
      · intro p hp
        simp [lruEmpty] at hp
      · simpa [lruEmpty, llSum] using hwf
    · rw [hl] at hwf
      exact ⟨l, rfl, hwf.1, hwf.2.1, hwf.2.2⟩
  obtain ⟨l0, heq, hmax0, hlwf0, hbytes0⟩ := hl0
  have hres : cacheAdd c key value =
      { applyEvictLog { c with lru := some (lruAdd l0 key value value.Expire).1 }
          (lruAdd l0 key value value.Expire).2 with
        nbytes := (applyEvictLog { c with lru := some (lruAdd l0 key value value.Expire).1 }
          (lruAdd l0 key value value.Expire).2).nbytes
            + (Int.ofNat key.utf8ByteSize + Int.ofNat value.Len) } := by
    unfold cacheAdd
    rw [heq]
  rw [hres]
  obtain ⟨hnb, hlru⟩ := applyEvictLog_spec
    { c with lru := some (lruAdd l0 key value value.Expire).1 }
    (lruAdd l0 key value value.Expire).2
  obtain ⟨hlwf1, hmax1, hsum1⟩ := lruAdd_spec l0 key value value.Expire hmax0 hlwf0
  refine cacheWf_of_some _ (lruAdd l0 key value value.Expire).1 ?_ hmax1 hlwf1 ?_
  · exact hlru
  · show (applyEvictLog { c with lru := some (lruAdd l0 key value value.Expire).1 }
        (lruAdd l0 key value value.Expire).2).nbytes
          + (Int.ofNat key.utf8ByteSize + Int.ofNat value.Len)
      ≤ llSum (lruAdd l0 key value value.Expire).1.ll
    rw [hnb]
    show c.nbytes - evictLogCost (lruAdd l0 key value value.Expire).2
        + (Int.ofNat key.utf8ByteSize + Int.ofNat value.Len)
      ≤ llSum (lruAdd l0 key value value.Expire).1.ll
    omega

/-! ## Group caches and populateCache (src/unnamed/part_002)

`GroupCaches` carries the fields of `Group` that `populateCache` touches:
the byte budget and the two caches.  The eviction loop is a fuelled
recursion: each productive iteration removes one list node, so
`groupItems + 1` units of fuel are enough whenever the Go loop terminates;
`none` models the loop spinning forever (possible only for states the
program cannot reach). -/

structure GroupCaches where
  cacheBytes : Int
  mainCache : GCache
  hotCache : GCache
  deriving DecidableEq, Repr

inductive CacheSel where
  | main
  | hot
  deriving DecidableEq, Repr

def selCache (g : GroupCaches) : CacheSel → GCache
  | CacheSel.main => g.mainCache
  | CacheSel.hot => g.hotCache

def setSelCache (g : GroupCaches) : CacheSel → GCache → GroupCaches
  | CacheSel.main, c => { g with mainCache := c }
  | CacheSel.hot, c => { g with hotCache := c }

def groupItems (g : GroupCaches) : Nat := cacheItems g.mainCache + cacheItems g.hotCache

/-- One iteration of the eviction loop: the victim is the hotCache when
`hotBytes > mainBytes/8` (Go `int64` division truncates towards zero, hence
`Int.tdiv`), else the mainCache; one oldest entry is evicted from it. -/
def evictOnce (g : GroupCaches) : GroupCaches :=
  if Int.tdiv g.mainCache.nbytes 8 < g.hotCache.nbytes then
    { g with hotCache := cacheRemoveOldest g.hotCache }
  else
    { g with mainCache := cacheRemoveOldest g.mainCache }

/-- The `for` loop of `populateCache`: return once the two caches fit the
budget, else evict one entry and continue. -/
def evictLoop : Nat → GroupCaches → Option GroupCaches
  | 0, _ => none
  | fuel + 1, g =>
      if g.mainCache.nbytes + g.hotCache.nbytes ≤ g.cacheBytes then some g
      else evictLoop fuel (evictOnce g)

/-- populateCache: no-op when `cacheBytes ≤ 0`, else add to the chosen cache
and run the eviction loop. -/
def populateCache (g : GroupCaches) (key : String) (value : ByteView) (tgt : CacheSel) :
    Option GroupCaches :=
  if g.cacheBytes ≤ 0 then some g
  else
    let g1 := setSelCache g tgt (cacheAdd (selCache g tgt) key value)
    evictLoop (groupItems g1 + 1) g1

theorem tdiv8_nonpos {a : Int} (h : a ≤ 0) : Int.tdiv a 8 ≤ 0 := by
  have h1 : 0 ≤ Int.tdiv (-a) 8 := Int.tdiv_nonneg (by omega) (by norm_num)
  have h2 : Int.tdiv (-a) 8 = -Int.tdiv a 8 := Int.neg_tdiv a 8
  omega

theorem evictLoop_spec (fuel : Nat) :
    ∀ g : GroupCaches, CacheWf g.mainCache → CacheWf g.hotCache → 0 < g.cacheBytes →
      groupItems g < fuel →
      ∃ g', evictLoop fuel g = some g' ∧ g'.cacheBytes = g.cacheBytes ∧
        g'.mainCache.nbytes + g'.hotCache.nbytes ≤ g.cacheBytes ∧
        CacheWf g'.mainCache ∧ CacheWf g'.hotCache := by
  induction fuel with
  | zero =>
      intro g _ _ _ hlt
      omega
  | succ fuel ih =>
      intro g hm hh hcb hlt
      by_cases hdone : g.mainCache.nbytes + g.hotCache.nbytes ≤ g.cacheBytes
      · exact ⟨g, by simp [evictLoop, hdone], rfl, hdone, hm, hh⟩
      · have hstep : evictLoop (fuel + 1) g = evictLoop fuel (evictOnce g) := by
          simp [evictLoop, hdone]
        push_neg at hdone
        by_cases hvic : Int.tdiv g.mainCache.nbytes 8 < g.hotCache.nbytes
        · have hhot_ne : cacheItems g.hotCache ≠ 0 := by
            intro h0
            have hnb := cacheItems_zero_nbytes _ hh h0
            have hmain_pos : 0 < g.mainCache.nbytes := by omega
            have := Int.tdiv_nonneg (le_of_lt hmain_pos) (by norm_num : (0:Int) ≤ 8)
            omega
          obtain ⟨hh', hitems⟩ := cacheRemoveOldest_spec g.hotCache hh hhot_ne
          have hev : evictOnce g = { g with hotCache := cacheRemoveOldest g.hotCache } := by
            simp [evictOnce, hvic]
          have hgi : groupItems (evictOnce g) + 1 = groupItems g := by
            rw [hev]
            show cacheItems g.mainCache + cacheItems (cacheRemoveOldest g.hotCache) + 1
              = cacheItems g.mainCache + cacheItems g.hotCache
            omega
          obtain ⟨g', h1, h2, h3, h4, h5⟩ := ih (evictOnce g)
            (by rw [hev]; exact hm) (by rw [hev]; exact hh')
            (by rw [hev]; exact hcb) (by omega)
          refine ⟨g', by rw [hstep]; exact h1, ?_, ?_, h4, h5⟩
          · rw [h2, hev]
          · have : (evictOnce g).cacheBytes = g.cacheBytes := by rw [hev]
            omega
        · have hmain_ne : cacheItems g.mainCache ≠ 0 := by
            intro h0
            have hnb := cacheItems_zero_nbytes _ hm h0
            have := tdiv8_nonpos hnb
            omega
          obtain ⟨hm', hitems⟩ := cacheRemoveOldest_spec g.mainCache hm hmain_ne
          have hev : evictOnce g = { g with mainCache := cacheRemoveOldest g.mainCache } := by
            simp [evictOnce, hvic]
          have hgi : groupItems (evictOnce g) + 1 = groupItems g := by
            rw [hev]
            show cacheItems (cacheRemoveOldest g.mainCache) + cacheItems g.hotCache + 1
              = cacheItems g.mainCache + cacheItems g.hotCache
            omega
          obtain ⟨g', h1, h2, h3, h4, h5⟩ := ih (evictOnce g)
            (by rw [hev]; exact hm') (by rw [hev]; exact hh)
            (by rw [hev]; exact hcb) (by omega)
          refine ⟨g', by rw [hstep]; exact h1, ?_, ?_, h4, h5⟩
          · rw [h2, hev]
          · have : (evictOnce g).cacheBytes = g.cacheBytes := by rw [hev]
            omega

/-- C6: for every Group with cacheBytes > 0 whose caches are in a state the
cache operations can produce (`CacheWf`), `populateCache` terminates and when
it returns `mainCache.bytes + hotCache.bytes ≤ cacheBytes` holds; and each
iteration of its eviction loop evicts one entry from the hotCache exactly
when `hotBytes > mainBytes/8` (truncated division) and from the mainCache
otherwise. -/
theorem group_populate_cache_bound (g : GroupCaches) (key : String) (value : ByteView)
    (tgt : CacheSel) (hcb : 0 < g.cacheBytes)
    (hm : CacheWf g.mainCache) (hh : CacheWf g.hotCache) :
    (∃ g', populateCache g key value tgt = some g' ∧
        g'.mainCache.nbytes + g'.hotCache.nbytes ≤ g.cacheBytes) ∧
    (∀ gg : GroupCaches,
      (Int.tdiv gg.mainCache.nbytes 8 < gg.hotCache.nbytes →
        evictOnce gg = { gg with hotCache := cacheRemoveOldest gg.hotCache }) ∧
      (¬ Int.tdiv gg.mainCache.nbytes 8 < gg.hotCache.nbytes →
        evictOnce gg = { gg with mainCache := cacheRemoveOldest gg.mainCache })) := by
  constructor
  · have hne : ¬ g.cacheBytes ≤ 0 := by omega
    cases tgt with
    | main =>
        have hpop : populateCache g key value CacheSel.main
            = evictLoop (groupItems { g with mainCache := cacheAdd g.mainCache key value } + 1)
                { g with mainCache := cacheAdd g.mainCache key value } := by
          unfold populateCache
          rw [if_neg hne]
          rfl
        obtain ⟨g', h1, h2, h3, h4, h5⟩ := evictLoop_spec
          (groupItems { g with mainCache := cacheAdd g.mainCache key value } + 1)
          { g with mainCache := cacheAdd g.mainCache key value }
          (cacheAdd_wf g.mainCache key value hm) hh hcb (Nat.lt_succ_self _)
        exact ⟨g', by rw [hpop]; exact h1, h3⟩
    | hot =>
        have hpop : populateCache g key value CacheSel.hot
            = evictLoop (groupItems { g with hotCache := cacheAdd g.hotCache key value } + 1)
                { g with hotCache := cacheAdd g.hotCache key value } := by
          unfold populateCache
          rw [if_neg hne]
          rfl
        obtain ⟨g', h1, h2, h3, h4, h5⟩ := evictLoop_spec
          (groupItems { g with hotCache := cacheAdd g.hotCache key value } + 1)
          { g with hotCache := cacheAdd g.hotCache key value }
          hm (cacheAdd_wf g.hotCache key value hh) hcb (Nat.lt_succ_self _)
        exact ⟨g', by rw [hpop]; exact h1, h3⟩
  · intro gg
    constructor
    · intro hv
      simp [evictOnce, hv]
    · intro hv
      simp [evictOnce, hv]

/-- Concrete group for the C6 witness. -/
def gW : GroupCaches := ⟨5, gcEmpty, gcEmpty⟩

/-- Witness for C6 at a concrete group and insertion. -/
theorem group_populate_cache_bound_witness :
    (0 < gW.cacheBytes ∧ CacheWf gW.mainCache ∧ CacheWf gW.hotCache) ∧
    ((∃ g', populateCache gW "k" (bvStr [1, 2, 3]) CacheSel.main = some g' ∧
        g'.mainCache.nbytes + g'.hotCache.nbytes ≤ gW.cacheBytes) ∧
     (∀ gg : GroupCaches,
       (Int.tdiv gg.mainCache.nbytes 8 < gg.hotCache.nbytes →
         evictOnce gg = { gg with hotCache := cacheRemoveOldest gg.hotCache }) ∧
       (¬ Int.tdiv gg.mainCache.nbytes 8 < gg.hotCache.nbytes →
         evictOnce gg = { gg with mainCache := cacheRemoveOldest gg.mainCache }))) :=
  ⟨⟨by decide, by decide, by decide⟩,
   group_populate_cache_bound gW "k" (bvStr [1, 2, 3]) CacheSel.main
     (by decide) (by decide) (by decide)⟩

/-! ## Group Get / load / Set / Remove (src/unnamed/part_002)

The environment of one call is captured by `LoadEnv`: the current time, the
peer picker's answer, the peer's reply, the context's liveness when the code
checks `ctx.Err()`, and the local getter's behaviour (`some v` means the
getter succeeds after writing `v` into the caller's sink; `none` means it
fails).  The caller's sink is threaded as an `Option ByteView` (`none` =
nothing written yet).  The outer `Option` on results is populate fuel, as
for `populateCache`. -/

inductive PeerErrKind where
  | canceled
  | notFound
  | remoteCall
  | other
  deriving DecidableEq, Repr

inductive GoErr where
  | nilSink
  | emptySetKey
  | fromPeer (k : PeerErrKind)
  | peerExpired
  | localLoad
  | removePeer (n : Nat)
  deriving DecidableEq, Repr

inductive PeerGetOutcome where
  | fail (k : PeerErrKind)
  | reply (value : List Nat) (expire : Int)
  deriving DecidableEq, Repr

structure LoadEnv where
  now : Int
  peerPick : Bool
  peerOutcome : PeerGetOutcome
  ctxLive : Bool
  getterOutcome : Option ByteView
  deriving DecidableEq, Repr

/-- lookupCache: nothing when cacheBytes ≤ 0; else mainCache then hotCache. -/
def lookupCache (g : GroupCaches) (key : String) (now : Int) :
    GroupCaches × Option ByteView :=
  if g.cacheBytes ≤ 0 then (g, none)
  else
    let rm := cacheGet g.mainCache key now
    match rm.2 with
    | some v => ({ g with mainCache := rm.1 }, some v)
    | none =>
        let rh := cacheGet g.hotCache key now
        ({ g with mainCache := rm.1, hotCache := rh.1 }, rh.2)

/-- getFromPeer: call the peer; reject a reply whose non-zero expiry is
already in the past; build the view carrying the reply's expiry and always
populate the hot cache. -/
def getFromPeer (g : GroupCaches) (key : String) (env : LoadEnv) :
    Option (GroupCaches × Except GoErr ByteView) :=
  match env.peerOutcome with
  | PeerGetOutcome.fail k => some (g, Except.error (GoErr.fromPeer k))
  | PeerGetOutcome.reply v ex =>
      if ex ≠ 0 ∧ ex < env.now then some (g, Except.error GoErr.peerExpired)
      else
        match populateCache g key ⟨some v, [], ex⟩ CacheSel.hot with
        | none => none
        | some g' => some (g', Except.ok ⟨some v, [], ex⟩)

/-- Result of the closure passed to `loadGroup.Do`: the `interface{}` value
and error it returns, plus the observable state it left behind. -/
structure ClosureOut where
  viewi : Option ByteView
  err : Option GoErr
  caches : GroupCaches
  sink : Option ByteView
  destPopulated : Bool
  localInvoked : Bool
  deriving DecidableEq, Repr

/-- getLocally followed by the tail of the closure's local path: on getter
success the sink holds the loaded view, `destPopulated` is set and the main
cache is populated. -/
def loadLocal (g : GroupCaches) (key : String) (env : LoadEnv) (sink : Option ByteView) :
    Option ClosureOut :=
  match env.getterOutcome with
  | none => some ⟨none, some GoErr.localLoad, g, sink, false, true⟩
  | some v =>
      match populateCache g key v CacheSel.main with
      | none => none
      | some g' => some ⟨some v, none, g', some v, true, true⟩

/-- The closure passed to `loadGroup.Do` in `load`: re-check the caches, try
the remote owner, return terminal peer errors (and any peer error once the
context died) without local fallback, else fall back to the local getter. -/
def loadClosure (g : GroupCaches) (key : String) (env : LoadEnv) (sink : Option ByteView) :
    Option ClosureOut :=
  match lookupCache g key env.now with
  | (g1, some v) => some ⟨some v, none, g1, sink, false, false⟩
  | (g1, none) =>
      if env.peerPick then
        match getFromPeer g1 key env with
        | none => none
        | some (g2, Except.ok value) => some ⟨some value, none, g2, sink, false, false⟩
        | some (g2, Except.error e) =>
            if e = GoErr.fromPeer PeerErrKind.canceled
                ∨ e = GoErr.fromPeer PeerErrKind.notFound
                ∨ e = GoErr.fromPeer PeerErrKind.remoteCall then
              some ⟨none, some e, g2, sink, false, false⟩
            else if env.ctxLive then loadLocal g2 key env sink
            else some ⟨none, some e, g2, sink, false, false⟩
      else loadLocal g1 key env sink

inductive LoadOut where
  | ret (value : ByteView) (destPopulated : Bool) (err : Option GoErr)
      (caches : GroupCaches) (sink : Option ByteView) (localInvoked : Bool)
  | panicked (caches : GroupCaches) (sink : Option ByteView) (localInvoked : Bool)
  deriving DecidableEq, Repr

/-- The code in `load` after `loadGroup.Do` returns, translated faithfully
with its inverted check `if err != nil { value = viewi.(ByteView) }`: on the
success path the named return `value` keeps its zero value, and on the error
path the type assertion runs on a nil interface and panics. -/
def loadPost (viewi : Option ByteView) (err : Option GoErr) (destPopulated : Bool)
    (caches : GroupCaches) (sink : Option ByteView) (localInvoked : Bool) : LoadOut :=
  match err with
  | none => LoadOut.ret ByteView.zero destPopulated none caches sink localInvoked
  | some e =>
      match viewi with
      | some bv => LoadOut.ret bv destPopulated (some e) caches sink localInvoked
      | none => LoadOut.panicked caches sink localInvoked

/-- load for the singleflight winner: its closure runs, then the post-Do
code. -/
def loadWinner (g : GroupCaches) (key : String) (env : LoadEnv) (sink : Option ByteView) :
    Option LoadOut :=
  match loadClosure g key env sink with
  | none => none
  | some co =>
      some (loadPost co.viewi co.err co.destPopulated co.caches co.sink co.localInvoked)

/-- load for a coalesced waiter: `Do` hands it the winner's stored record
(viewi, err); the waiter's own closure never runs, so its `destPopulated`
stays false and its sink and caches are untouched before the post-Do code. -/
def loadWaiter (recordView : Option ByteView) (recordErr : Option GoErr)
    (g : GroupCaches) (sink : Option ByteView) : LoadOut :=
  loadPost recordView recordErr false g sink false

inductive GetOut where
  | ret (err : Option GoErr) (caches : GroupCaches) (sink : Option ByteView)
      (localInvoked : Bool)
  | panicked (caches : GroupCaches) (sink : Option ByteView) (localInvoked : Bool)
  deriving DecidableEq, Repr

/-- The tail of `Get` after `load` returns: propagate an error, skip the
sink write when `destPopulated`, else `setSinkView(dest, value)`. -/
def getTail (lo : LoadOut) : GetOut :=
  match lo with
  | LoadOut.panicked c s li => GetOut.panicked c s li
  | LoadOut.ret value destPop err c s li =>
      match err with
      | some e => GetOut.ret (some e) c s li
      | none =>
          if destPop then GetOut.ret none c s li
          else GetOut.ret none c (some value) li

/-- Get: nil-sink validation, cache lookup (a hit sets the sink through
setSinkView), and on a miss the load path followed by `getTail`.  This
version of Get has no empty-key validation. -/
def groupGet (g : GroupCaches) (key : String) (destNil : Bool) (env : LoadEnv) :
    Option GetOut :=
  if destNil then some (GetOut.ret (some GoErr.nilSink) g none false)
  else
    match lookupCache g key env.now with
    | (g1, some v) => some (GetOut.ret none g1 (some v) false)
    | (g1, none) =>
        match loadWinner g1 key env none with
        | none => none
        | some lo => some (getTail lo)

structure SetEnv where
  peerPick : Bool
  peerSetErr : Option GoErr
  deriving DecidableEq, Repr

/-- localSet: build the view from the caller's bytes and expiry and populate
the chosen cache (under loadGroup.Lock in the source). -/
def localSet (g : GroupCaches) (key : String) (value : List Nat) (expire : Int)
    (tgt : CacheSel) : Option GroupCaches :=
  if g.cacheBytes ≤ 0 then some g
  else populateCache g key ⟨some value, [], expire⟩ tgt

/-- Set: empty-key validation, then inside setGroup.Do: a remote owner gets
the value (optionally mirrored into the hot cache), else the main cache is
set locally.  The Bool reports whether the remote Set was issued. -/
def groupSet (g : GroupCaches) (key : String) (value : List Nat) (expire : Int)
    (hot : Bool) (env : SetEnv) : Option (GroupCaches × Option GoErr × Bool) :=
  if key = "" then some (g, some GoErr.emptySetKey, false)
  else
    if env.peerPick then
      match env.peerSetErr with
      | some e => some (g, some e, true)
      | none =>
          if hot then
            match localSet g key value expire CacheSel.hot with
            | none => none
            | some g' => some (g', none, true)
          else some (g, none, true)
    else
      match localSet g key value expire CacheSel.main with
      | none => none
      | some g' => some (g', none, false)

/-- localRemove: clear the key from the hot then the main cache (under
loadGroup.Lock in the source); a no-op when cacheBytes ≤ 0. -/
def localRemove (g : GroupCaches) (key : String) : GroupCaches :=
  if g.cacheBytes ≤ 0 then g
  else
    { g with hotCache := cacheRemove g.hotCache key,
             mainCache := cacheRemove g.mainCache key }

structure RemoveEnv where
  ownerPick : Bool
  ownerErr : Option GoErr
  broadcastErrs : List (Option GoErr)
  deriving DecidableEq, Repr

/-- Remove, inside removeGroup.Do: remove from the owning peer first and
return early on its error - skipping the local removal; then remove locally
and broadcast to the other peers, keeping only the last value received from
the error channel (a later nil overwrites an earlier error, as in the
source's final loop). -/
def groupRemove (g : GroupCaches) (key : String) (env : RemoveEnv) :
    GroupCaches × Option GoErr :=
  if env.ownerPick then
    match env.ownerErr with
    | some e => (g, some e)
    | none =>
        (localRemove g key, env.broadcastErrs.foldl (fun _ e => e) none)
  else
    (localRemove g key, env.broadcastErrs.foldl (fun _ e => e) none)

/-- Projection: the caller's sink after Get. -/
def getOutSink : GetOut → Option ByteView
  | GetOut.ret _ _ s _ => s
  | GetOut.panicked _ s _ => s

/-- Projection: did Get return an error (a panic counts as not returning)? -/
def getOutErr : GetOut → Option GoErr
  | GetOut.ret e _ _ _ => e
  | GetOut.panicked _ _ _ => none

/-- Projection: was the local getter invoked during this Get? -/
def getOutLocalInvoked : GetOut → Bool
  | GetOut.ret _ _ _ li => li
  | GetOut.panicked _ _ li => li

/-- Projection: did load end in the nil-interface panic? -/
def loadOutPanicked : LoadOut → Bool
  | LoadOut.panicked _ _ _ => true
  | LoadOut.ret _ _ _ _ _ _ => false

/-- Projection: was the local getter invoked during this load? -/
def loadOutLocalInvoked : LoadOut → Bool
  | LoadOut.ret _ _ _ _ _ li => li
  | LoadOut.panicked _ _ li => li

/-- A group with room and empty caches, used for the Get evaluations. -/
def gGetW : GroupCaches := ⟨100, gcEmpty, gcEmpty⟩

/-- Environment: remote owner answers successfully with the bytes of
"hello" and no expiry; the local getter would also succeed. -/
def envPeerOk : LoadEnv :=
  ⟨0, true, PeerGetOutcome.reply [104, 101, 108, 108, 111] 0, true, some (bvStr [9])⟩

/-- C1 is violated by the code: on a cache miss whose peer load succeeds,
Get returns a nil error but writes the zero ByteView into the caller's sink
instead of the loaded "hello" view, because `load` assigns
`value = viewi.(ByteView)` only when `err != nil` (an inverted check); a
coalesced waiter of a successful load receives the empty view the same way.
Only the local-load winner (destPopulated) gets the right bytes. -/
theorem get_peer_success_leaves_sink_empty :
    (groupGet gGetW "greet" false envPeerOk).map getOutErr = some none ∧
    (groupGet gGetW "greet" false envPeerOk).map getOutSink = some (some ByteView.zero) ∧
    ByteView.zero ≠ bvStr [104, 101, 108, 108, 111] ∧
    ByteView.zero.Len = 0 ∧
    loadWaiter (some (bvStr [104, 101, 108, 108, 111])) none gGetW none
      = LoadOut.ret ByteView.zero false none gGetW none false := by
  refine ⟨?_, ?_, by decide, rfl, rfl⟩ <;> decide

/-- Environment for a failing peer: the picker chooses a remote owner whose
Get fails with kind `k`; the context stays live; the getter would succeed. -/
def envPeerFail (k : PeerErrKind) : LoadEnv :=
  ⟨0, true, PeerGetOutcome.fail k, true, some (bvStr [9])⟩

/-- Environment for a failing peer with a dead context. -/
def envPeerFailDead : LoadEnv :=
  ⟨0, true, PeerGetOutcome.fail PeerErrKind.other, false, some (bvStr [9])⟩

/-- C8 against the code: for the three terminal peer errors
(context-cancelled, ErrNotFound, ErrRemoteCall) the Do closure returns that
error without invoking the local loader - but `load` then panics on the nil
interface instead of returning the error to its caller (the same inverted
check as C1); the local fallback runs exactly for an `other` peer error with
a live context, and is skipped when the context has died. -/
theorem load_terminal_peer_errors_no_local :
    ((loadClosure gGetW "k" (envPeerFail PeerErrKind.canceled) none).map
        (fun co => (co.err, co.localInvoked))
      = some (some (GoErr.fromPeer PeerErrKind.canceled), false)) ∧
    ((loadClosure gGetW "k" (envPeerFail PeerErrKind.notFound) none).map
        (fun co => (co.err, co.localInvoked))
      = some (some (GoErr.fromPeer PeerErrKind.notFound), false)) ∧
    ((loadClosure gGetW "k" (envPeerFail PeerErrKind.remoteCall) none).map
        (fun co => (co.err, co.localInvoked))
      = some (some (GoErr.fromPeer PeerErrKind.remoteCall), false)) ∧
    ((loadWinner gGetW "k" (envPeerFail PeerErrKind.canceled) none).map loadOutPanicked
      = some true) ∧
    ((loadWinner gGetW "k" (envPeerFail PeerErrKind.notFound) none).map loadOutPanicked
      = some true) ∧
    ((loadWinner gGetW "k" (envPeerFail PeerErrKind.remoteCall) none).map loadOutPanicked
      = some true) ∧
    ((loadWinner gGetW "k" (envPeerFail PeerErrKind.other) none).map loadOutLocalInvoked
      = some true) ∧
    ((loadWinner gGetW "k" envPeerFailDead none).map loadOutLocalInvoked
      = some false) := by
  refine ⟨?_, ?_, ?_, ?_, ?_, ?_, ?_, ?_⟩ <;> decide

/-- Environment with no remote owner and a succeeding getter, for C7. -/
def envLocalOk : LoadEnv :=
  ⟨0, false, PeerGetOutcome.fail PeerErrKind.other, true, some (bvStr [7])⟩

/-- Counterexample to C7 as stated: Get with the empty key and a valid sink
does not return a validation error - it proceeds through the normal miss
path, invokes the loader, and returns nil. -/
theorem get_empty_key_not_validated :
    (groupGet gGetW "" false envLocalOk).map getOutErr = some none ∧
    (groupGet gGetW "" false envLocalOk).map getOutLocalInvoked = some true := by
  refine ⟨?_, ?_⟩ <;> decide

/-- C7 amended: Get validates only the nil sink (returning an error at once,
with no loader call, no cache mutation and nothing written to the sink), and
Set validates the empty key the same way; Get performs no empty-key
validation (see the counterexample above). -/
theorem get_set_validation (g : GroupCaches) (key : String) (env : LoadEnv)
    (senv : SetEnv) (value : List Nat) (expire : Int) (hot : Bool) :
    groupGet g key true env = some (GetOut.ret (some GoErr.nilSink) g none false) ∧
    groupSet g "" value expire hot senv = some (g, some GoErr.emptySetKey, false) := by
  constructor
  · simp [groupGet]
  · simp [groupSet]

/-- A group whose mainCache holds the key "k". -/
def gRemW : GroupCaches := ⟨100, cacheAdd gcEmpty "k" (bvStr [1]), gcEmpty⟩

/-- Counterexample to C5 as stated: when removeFromPeer to the remote owner
fails, Remove returns that error after skipping the local removal, so the
key is still in the mainCache afterwards. -/
theorem remove_owner_error_keeps_local_entry :
    (groupRemove gRemW "k" ⟨true, some (GoErr.removePeer 0), []⟩).2
        = some (GoErr.removePeer 0) ∧
    (cacheGet (groupRemove gRemW "k" ⟨true, some (GoErr.removePeer 0), []⟩).1.mainCache
        "k" 0).2 = some (bvStr [1]) := by
  refine ⟨?_, ?_⟩ <;> decide

theorem cacheGet_none_of_no_binding (c : GCache) (key : String) (now : Int)
    (l' : LruCache ByteView) (hl : c.lru = some l')
    (h : alookup key l'.cacheMap = none) : (cacheGet c key now).2 = none := by
  simp [cacheGet, hl, lruGet, h]

theorem cacheGet_after_remove (c : GCache) (key : String) (now : Int) (hwf : CacheWf c) :
    (cacheGet (cacheRemove c key) key now).2 = none := by
  unfold CacheWf at hwf
  rcases hl : c.lru with _ | l
  · simp [cacheRemove, hl, cacheGet]
  · rw [hl] at hwf
    obtain ⟨-, ⟨hbound, hnd, hmap⟩, -⟩ := hwf
    rcases hlook : alookup key l.cacheMap with _ | nid
    · have h1 : cacheRemove c key
          = applyEvictLog { c with lru := some (lruRemove l key).1 } (lruRemove l key).2 := by
        unfold cacheRemove
        rw [hl]
      have h2 : lruRemove l key = (l, []) := by
        unfold lruRemove
        rw [hlook]
      have hlru : (cacheRemove c key).lru = some l := by
        rw [h1, (applyEvictLog_spec _ _).2, h2]
      exact cacheGet_none_of_no_binding _ key now l hlru hlook
    · obtain ⟨n, hnmem, hnid0, hnkey0⟩ := hmap (key, nid) (alookup_mem _ _ _ hlook)
      have hnid : n.nid = nid := hnid0
      have hnkey : n.key = key := hnkey0
      have hfind : llFindId nid l.ll = some n := by
        rw [← hnid]
        exact llFindId_of_mem_nodup hnd hnmem
      have hremln : lruRemove l key = lruRemoveNode l n := by
        simp only [lruRemove, hlook, hfind]
      have hstep : cacheRemove c key
          = applyEvictLog { c with lru := some (lruRemove l key).1 } (lruRemove l key).2 := by
        unfold cacheRemove
        rw [hl]
      have hlru : (cacheRemove c key).lru = some (lruRemoveNode l n).1 := by
        rw [hstep, (applyEvictLog_spec _ _).2, hremln]
      have hnob : alookup key (lruRemoveNode l n).1.cacheMap = none := by
        show alookup key (adel n.key l.cacheMap) = none
        rw [hnkey]
        exact alookup_adel_self key l.cacheMap
      exact cacheGet_none_of_no_binding _ key now _ hlru hnob

/-- C5 amended: when the removal at the owning peer succeeds, or no remote
owner is picked, Remove does clear the key from both local caches of the
group (for a group that caches at all and whose caches are in a state the
cache operations can produce); when the owner removal fails, Remove returns
that error without removing the key locally (see the counterexample). -/
theorem remove_clears_local_when_owner_ok (g : GroupCaches) (key : String)
    (env : RemoveEnv) (now : Int)
    (howner : env.ownerPick = false ∨ env.ownerErr = none)
    (hcb : 0 < g.cacheBytes)
    (hm : CacheWf g.mainCache) (hh : CacheWf g.hotCache) :
    (cacheGet (groupRemove g key env).1.mainCache key now).2 = none ∧
    (cacheGet (groupRemove g key env).1.hotCache key now).2 = none := by
  have hloc : (groupRemove g key env).1 = localRemove g key := by
    rcases howner with h | h
    · simp [groupRemove, h]
    · cases he : env.ownerPick
      · simp [groupRemove, he]
      · simp [groupRemove, he, h]
  rw [hloc]
  have hne : ¬ g.cacheBytes ≤ 0 := by omega
  have hlr : localRemove g key
      = { g with hotCache := cacheRemove g.hotCache key,
                 mainCache := cacheRemove g.mainCache key } := by
    unfold localRemove
    rw [if_neg hne]
  rw [hlr]
  exact ⟨cacheGet_after_remove g.mainCache key now hm,
         cacheGet_after_remove g.hotCache key now hh⟩

/-- Witness for the amended C5 at a concrete group holding "k". -/
theorem remove_clears_local_when_owner_ok_witness :
    (((⟨true, none, [some (GoErr.removePeer 1)]⟩ : RemoveEnv).ownerPick = false ∨
        (⟨true, none, [some (GoErr.removePeer 1)]⟩ : RemoveEnv).ownerErr = none) ∧
      0 < gRemW.cacheBytes ∧ CacheWf gRemW.mainCache ∧ CacheWf gRemW.hotCache) ∧
    ((cacheGet (groupRemove gRemW "k"
        ⟨true, none, [some (GoErr.removePeer 1)]⟩).1.mainCache "k" 0).2 = none ∧
     (cacheGet (groupRemove gRemW "k"
        ⟨true, none, [some (GoErr.removePeer 1)]⟩).1.hotCache "k" 0).2 = none) :=
  ⟨⟨by decide, by decide, by decide, by decide⟩,
   remove_clears_local_when_owner_ok gRemW "k" ⟨true, none, [some (GoErr.removePeer 1)]⟩ 0
     (by decide) (by decide) (by decide) (by decide)⟩

/-! ## SingleFlight (src/geecache/singleflight/singleflight.go)

`Do` consists of three mutex-protected critical sections around the call of
`fn`: (1) look the key up in `g.m`, either registering as a waiter on the
existing record or inserting a fresh record and becoming its winner; (2) for
the winner, after `fn` returns, store the result in the record and release
the waiters (`wg.Done`); (3) reacquire the lock and delete the record.  A
waiter returns once the record's result is available.  Each critical
section is one atomic event of the state machine below; an interleaving of
concurrent Do calls is a list of events.  `execs` logs every invocation of
`fn` as `(caller, record id)`; record ids model the identity of the `call`
structs allocated by Do. -/

inductive CallerPhase where
  | winner (key : String) (cid : Nat)
  | finishedFn (key : String) (cid : Nat)
  | waiter (cid : Nat)
  | returned (cid : Nat) (val : Int) (errFlag : Bool)
  deriving DecidableEq, Repr

def phaseCid : CallerPhase → Nat
  | CallerPhase.winner _ cid => cid
  | CallerPhase.finishedFn _ cid => cid
  | CallerPhase.waiter cid => cid
  | CallerPhase.returned cid _ _ => cid

/-- A phase that owns the in-flight record `cid` (its fn is running or has
just returned, but the record has not been deleted yet). -/
def winnerish (ph : CallerPhase) (cid : Nat) : Prop :=
  (∃ k, ph = CallerPhase.winner k cid) ∨ (∃ k, ph = CallerPhase.finishedFn k cid)

inductive SFEvent where
  | doEnter (c : Nat) (key : String)
  | fnReturn (c : Nat) (val : Int) (errFlag : Bool)
  | cleanup (c : Nat)
  | waiterReturn (c : Nat)
  deriving DecidableEq, Repr

structure SFState where
  inflight : List (String × Nat)
  results : List (Nat × Int × Bool)
  callers : List (Nat × CallerPhase)
  execs : List (Nat × Nat)
  nextId : Nat
  deriving DecidableEq, Repr

def sfInit : SFState := ⟨[], [], [], [], 0⟩

/-- One atomic event.  `none` means the event is not enabled in this state
(so only well-formed interleavings are considered). -/
def sfStep (s : SFState) : SFEvent → Option SFState
  | SFEvent.doEnter c key =>
      match alookup c s.callers with
      | some _ => none
      | none =>
          match alookup key s.inflight with
          | some cid =>
              some { s with callers := aset c (CallerPhase.waiter cid) s.callers }
          | none =>
              some { s with
                inflight := aset key s.nextId s.inflight,
                callers := aset c (CallerPhase.winner key s.nextId) s.callers,
                execs := s.execs ++ [(c, s.nextId)],
                nextId := s.nextId + 1 }
  | SFEvent.fnReturn c v e =>
      match alookup c s.callers with
      | some (CallerPhase.winner key cid) =>
          some { s with
            results := aset cid (v, e) s.results,
            callers := aset c (CallerPhase.finishedFn key cid) s.callers }
      | some _ => none
      | none => none
  | SFEvent.cleanup c =>
      match alookup c s.callers with
      | some (CallerPhase.finishedFn key cid) =>
          match alookup cid s.results with
          | some r =>
              some { s with
                inflight := adel key s.inflight,
                callers := aset c (CallerPhase.returned cid r.1 r.2) s.callers }
          | none => none
      | some _ => none
      | none => none
  | SFEvent.waiterReturn c =>
      match alookup c s.callers with
      | some (CallerPhase.waiter cid) =>
          match alookup cid s.results with
          | some r =>
              some { s with callers := aset c (CallerPhase.returned cid r.1 r.2) s.callers }
          | none => none
      | some _ => none
      | none => none

def sfRunFrom (s : SFState) : List SFEvent → Option SFState
  | [] => some s
  | e :: rest =>
      match sfStep s e with
      | none => none
      | some s' => sfRunFrom s' rest

def sfRun (es : List SFEvent) : Option SFState := sfRunFrom sfInit es

/-- The inductive invariant of the SingleFlight machine. -/
structure SFInv (s : SFState) : Prop where
  inflight_keys : (s.inflight.map Prod.fst).Nodup
  callers_keys : (s.callers.map Prod.fst).Nodup
  results_keys : (s.results.map Prod.fst).Nodup
  execs_cids : (s.execs.map Prod.snd).Nodup
  inflight_bound : ∀ p ∈ s.inflight, p.2 < s.nextId
  results_bound : ∀ p ∈ s.results, p.1 < s.nextId
  execs_bound : ∀ p ∈ s.execs, p.2 < s.nextId
  phase_bound : ∀ p ∈ s.callers, phaseCid p.2 < s.nextId
  winner_inflight : ∀ c key cid,
    (c, CallerPhase.winner key cid) ∈ s.callers → (key, cid) ∈ s.inflight
  finished_inflight : ∀ c key cid,
    (c, CallerPhase.finishedFn key cid) ∈ s.callers → (key, cid) ∈ s.inflight
  winner_unique : ∀ c1 ph1 c2 ph2 cid, (c1, ph1) ∈ s.callers → (c2, ph2) ∈ s.callers →
    winnerish ph1 cid → winnerish ph2 cid → c1 = c2
  winner_no_result : ∀ c key cid, (c, CallerPhase.winner key cid) ∈ s.callers →
    ∀ r, (cid, r) ∉ s.results
  returned_result : ∀ c cid v e,
    (c, CallerPhase.returned cid v e) ∈ s.callers → (cid, (v, e)) ∈ s.results
  waiter_no_exec : ∀ c cid, (c, CallerPhase.waiter cid) ∈ s.callers →
    ∀ cid2, (c, cid2) ∉ s.execs
  execs_callers : ∀ p ∈ s.execs, p.1 ∈ s.callers.map Prod.fst

theorem mem_eq_of_keys_nodup {κ α : Type} [DecidableEq κ] {m : List (κ × α)}
    (hnd : (m.map Prod.fst).Nodup) {p q : κ × α} (hp : p ∈ m) (hq : q ∈ m)
    (hfst : p.1 = q.1) : p = q :=
  List.inj_on_of_nodup_map hnd hp hq hfst

theorem not_mem_of_alookup_none {κ α : Type} [DecidableEq κ] {k : κ} {m : List (κ × α)}
    (h : alookup k m = none) (v : α) : (k, v) ∉ m := by
  induction m with
  | nil => simp
  | cons p rest ih =>
      intro hmem
      by_cases hk : k = p.1
      · simp [alookup, hk] at h
      · simp only [alookup, hk, if_false] at h
        rcases List.mem_cons.1 hmem with he | he
        · exact hk (by rw [← he])
        · exact ih h he

theorem keys_mem_aset {κ α : Type} [DecidableEq κ] (k : κ) (v : α) (m : List (κ × α))
    {a : κ} (h : a ∈ m.map Prod.fst) : a ∈ (aset k v m).map Prod.fst := by
  by_cases hak : a = k
  · subst hak
    exact List.mem_map.2 ⟨(a, v), List.mem_cons_self _ _, rfl⟩
  · obtain ⟨p, hp, hpa⟩ := List.mem_map.1 h
    refine List.mem_map.2 ⟨p, ?_, hpa⟩
    exact (mem_aset k v p m).2 (Or.inr ⟨hp, by rw [hpa]; exact hak⟩)

theorem sfInit_inv : SFInv sfInit := by
  refine ⟨?_, ?_, ?_, ?_, ?_, ?_, ?_, ?_, ?_, ?_, ?_, ?_, ?_, ?_, ?_⟩ <;>
    simp [sfInit] <;> intro p hp <;> simp at hp

theorem phaseCid_of_winnerish {ph : CallerPhase} {cid : Nat} (h : winnerish ph cid) :
    phaseCid ph = cid := by
  rcases h with ⟨k, hk⟩ | ⟨k, hk⟩ <;> rw [hk] <;> rfl

theorem alookup_none_keys {κ α : Type} [DecidableEq κ] {k : κ} {m : List (κ × α)}
    (h : alookup k m = none) : k ∉ m.map Prod.fst := by
  intro hmem
  obtain ⟨p, hp, hfst⟩ := List.mem_map.1 hmem
  have := not_mem_of_alookup_none h p.2
  rw [← hfst, Prod.mk.eta] at this
  exact this hp

theorem sfStep_inv_doEnter {s s' : SFState} {c : Nat} {key : String} (hinv : SFInv s)
    (hstep : sfStep s (SFEvent.doEnter c key) = some s') : SFInv s' := by
  simp only [sfStep] at hstep
  rcases hc : alookup c s.callers with _ | ph
  · rw [hc] at hstep
    rcases hk : alookup key s.inflight with _ | cid
    · -- fresh record: this caller becomes the winner and fn runs once
      rw [hk] at hstep
      simp only [Option.some.injEq] at hstep
      subst hstep
      have hcidlt : ∀ p ∈ s.inflight, p.2 < s.nextId := hinv.inflight_bound
      refine ⟨keys_nodup_aset _ _ _ hinv.inflight_keys,
        keys_nodup_aset _ _ _ hinv.callers_keys, hinv.results_keys, ?_, ?_, ?_, ?_, ?_,
        ?_, ?_, ?_, ?_, ?_, ?_, ?_⟩
      · rw [List.map_append, List.nodup_append]
        refine ⟨hinv.execs_cids, by simp, ?_⟩
        intro b hb hb2
        simp only [List.map_cons, List.map_nil, List.mem_singleton] at hb2
        obtain ⟨p, hp, hps⟩ := List.mem_map.1 hb
        have := hinv.execs_bound p hp
        omega
      · intro p hp
        rcases (mem_aset _ _ _ _).1 hp with he | ⟨hold, -⟩
        · rw [he]
          exact Nat.lt_succ_self _
        · exact Nat.lt_succ_of_lt (hinv.inflight_bound p hold)
      · intro p hp
        exact Nat.lt_succ_of_lt (hinv.results_bound p hp)
      · intro p hp
        rcases List.mem_append.1 hp with hold | hnew
        · exact Nat.lt_succ_of_lt (hinv.execs_bound p hold)
        · simp only [List.mem_singleton] at hnew
          rw [hnew]
          exact Nat.lt_succ_self _
      · intro p hp
        rcases (mem_aset _ _ _ _).1 hp with he | ⟨hold, -⟩
        · rw [he]
          exact Nat.lt_succ_self _
        · exact Nat.lt_succ_of_lt (hinv.phase_bound p hold)
      · intro c2 k2 cid2 hmem
        rcases (mem_aset _ _ _ _).1 hmem with he | ⟨hold, -⟩
        · injection he with he1 he2
          injection he2 with he2a he2b
          subst he2a
          subst he2b
          exact (mem_aset _ _ _ _).2 (Or.inl rfl)
        · have hold2 := hinv.winner_inflight _ _ _ hold
          by_cases hkk : k2 = key
          · exact absurd (hkk ▸ hold2) (not_mem_of_alookup_none hk cid2)
          · exact (mem_aset _ _ _ _).2 (Or.inr ⟨hold2, hkk⟩)
      · intro c2 k2 cid2 hmem
        rcases (mem_aset _ _ _ _).1 hmem with he | ⟨hold, -⟩
        · simp at he
        · have hold2 := hinv.finished_inflight _ _ _ hold
          by_cases hkk : k2 = key
          · exact absurd (hkk ▸ hold2) (not_mem_of_alookup_none hk cid2)
          · exact (mem_aset _ _ _ _).2 (Or.inr ⟨hold2, hkk⟩)
      · intro c1 ph1 c2 ph2 cid' hm1 hm2 hw1 hw2
        rcases (mem_aset _ _ _ _).1 hm1 with he1 | ⟨hold1, hne1⟩ <;>
          rcases (mem_aset _ _ _ _).1 hm2 with he2 | ⟨hold2, hne2⟩
        · injection he1 with ha1 _
          injection he2 with ha2 _
          rw [ha1, ha2]
        · injection he1 with ha1 hb1
          rw [hb1] at hw1
          have hcid' : cid' = s.nextId := by
            have := phaseCid_of_winnerish hw1
            simpa using this.symm
          have := hinv.phase_bound _ hold2
          rw [phaseCid_of_winnerish hw2, hcid'] at this
          omega
        · injection he2 with ha2 hb2
          rw [hb2] at hw2
          have hcid' : cid' = s.nextId := by
            have := phaseCid_of_winnerish hw2
            simpa using this.symm
          have := hinv.phase_bound _ hold1
          rw [phaseCid_of_winnerish hw1, hcid'] at this
          omega
        · exact hinv.winner_unique c1 ph1 c2 ph2 cid' hold1 hold2 hw1 hw2
      · intro c2 k2 cid2 hmem r hr
        rcases (mem_aset _ _ _ _).1 hmem with he | ⟨hold, -⟩
        · injection he with _ he2
          injection he2 with _ he2b
          have hrb : cid2 < s.nextId := hinv.results_bound (cid2, r) hr
          omega
        · exact hinv.winner_no_result _ _ _ hold r hr
      · intro c2 cid2 v2 e2 hmem
        rcases (mem_aset _ _ _ _).1 hmem with he | ⟨hold, -⟩
        · simp at he
        · exact hinv.returned_result _ _ _ _ hold
      · intro c2 cid2 hmem cid3 hex
        rcases (mem_aset _ _ _ _).1 hmem with he | ⟨hold, hne⟩
        · simp at he
        · rcases List.mem_append.1 hex with hex | hex
          · exact hinv.waiter_no_exec _ _ hold cid3 hex
          · simp only [List.mem_singleton] at hex
            injection hex with hex1 _
            exact hne hex1
      · intro p hp
        rcases List.mem_append.1 hp with hold | hnew
        · exact keys_mem_aset _ _ _ (hinv.execs_callers p hold)
        · simp only [List.mem_singleton] at hnew
          rw [hnew]
          exact List.mem_map.2 ⟨(c, CallerPhase.winner key s.nextId),
            List.mem_cons_self _ _, rfl⟩
    · -- existing record: this caller becomes a waiter and never runs fn
      rw [hk] at hstep
      simp only [Option.some.injEq] at hstep
      subst hstep
      refine ⟨hinv.inflight_keys, keys_nodup_aset _ _ _ hinv.callers_keys,
        hinv.results_keys, hinv.execs_cids, hinv.inflight_bound, hinv.results_bound,
        hinv.execs_bound, ?_, ?_, ?_, ?_, ?_, ?_, ?_, ?_⟩
      · intro p hp
        rcases (mem_aset _ _ _ _).1 hp with he | ⟨hold, -⟩
        · rw [he]
          exact hinv.inflight_bound (key, cid) (alookup_mem _ _ _ hk)
        · exact hinv.phase_bound p hold
      · intro c2 k2 cid2 hmem
        rcases (mem_aset _ _ _ _).1 hmem with he | ⟨hold, -⟩
        · simp at he
        · exact hinv.winner_inflight _ _ _ hold
      · intro c2 k2 cid2 hmem
        rcases (mem_aset _ _ _ _).1 hmem with he | ⟨hold, -⟩
        · simp at he
        · exact hinv.finished_inflight _ _ _ hold
      · intro c1 ph1 c2 ph2 cid' hm1 hm2 hw1 hw2
        rcases (mem_aset _ _ _ _).1 hm1 with he1 | ⟨hold1, -⟩
        · injection he1 with _ hb1
          rw [hb1] at hw1
          rcases hw1 with ⟨k, hk'⟩ | ⟨k, hk'⟩ <;> simp at hk'
        · rcases (mem_aset _ _ _ _).1 hm2 with he2 | ⟨hold2, -⟩
          · injection he2 with _ hb2
            rw [hb2] at hw2
            rcases hw2 with ⟨k, hk'⟩ | ⟨k, hk'⟩ <;> simp at hk'
          · exact hinv.winner_unique c1 ph1 c2 ph2 cid' hold1 hold2 hw1 hw2
      · intro c2 k2 cid2 hmem r hr
        rcases (mem_aset _ _ _ _).1 hmem with he | ⟨hold, -⟩
        · simp at he
        · exact hinv.winner_no_result _ _ _ hold r hr
      · intro c2 cid2 v2 e2 hmem
        rcases (mem_aset _ _ _ _).1 hmem with he | ⟨hold, -⟩
        · simp at he
        · exact hinv.returned_result _ _ _ _ hold
      · intro c2 cid2 hmem cid3 hex
        rcases (mem_aset _ _ _ _).1 hmem with he | ⟨hold, -⟩
        · injection he with ha _
          subst ha
          have := hinv.execs_callers _ hex
          exact alookup_none_keys hc this
        · exact hinv.waiter_no_exec _ _ hold cid3 hex
      · intro p hp
        exact keys_mem_aset _ _ _ (hinv.execs_callers p hp)
  · rw [hc] at hstep
    simp at hstep

theorem sfStep_inv_fnReturn {s s' : SFState} {c : Nat} {v : Int} {e : Bool} (hinv : SFInv s)
    (hstep : sfStep s (SFEvent.fnReturn c v e) = some s') : SFInv s' := by
  simp only [sfStep] at hstep
  rcases hc : alookup c s.callers with _ | ph
  · rw [hc] at hstep
    simp at hstep
  · rw [hc] at hstep
    cases ph with
    | winner key cid =>
        simp only [Option.some.injEq] at hstep
        subst hstep
        have hcmem : (c, CallerPhase.winner key cid) ∈ s.callers := alookup_mem _ _ _ hc
        have hcidlt : cid < s.nextId := hinv.phase_bound _ hcmem
        refine ⟨hinv.inflight_keys, keys_nodup_aset _ _ _ hinv.callers_keys,
          keys_nodup_aset _ _ _ hinv.results_keys, hinv.execs_cids, hinv.inflight_bound,
          ?_, hinv.execs_bound, ?_, ?_, ?_, ?_, ?_, ?_, ?_, ?_⟩
        · intro p hp
          rcases (mem_aset _ _ _ _).1 hp with he | ⟨hold, -⟩
          · rw [he]
            exact hcidlt
          · exact hinv.results_bound p hold
        · intro p hp
          rcases (mem_aset _ _ _ _).1 hp with he | ⟨hold, -⟩
          · rw [he]
            exact hcidlt
          · exact hinv.phase_bound p hold
        · intro c2 k2 cid2 hmem
          rcases (mem_aset _ _ _ _).1 hmem with he | ⟨hold, -⟩
          · simp at he
          · exact hinv.winner_inflight _ _ _ hold
        · intro c2 k2 cid2 hmem
          rcases (mem_aset _ _ _ _).1 hmem with he | ⟨hold, -⟩
          · injection he with _ he2
            injection he2 with he2a he2b
            subst he2a
            subst he2b
            exact hinv.winner_inflight _ _ _ hcmem
          · exact hinv.finished_inflight _ _ _ hold
        · intro c1 ph1 c2 ph2 cid' hm1 hm2 hw1 hw2
          have tr : ∀ c3 ph3, (c3, ph3) ∈ aset c (CallerPhase.finishedFn key cid) s.callers →
              winnerish ph3 cid' →
              ∃ ph4, (c3, ph4) ∈ s.callers ∧ winnerish ph4 cid' := by
            intro c3 ph3 hm3 hw3
            rcases (mem_aset _ _ _ _).1 hm3 with he3 | ⟨hold3, -⟩
            · injection he3 with ha3 hb3
              subst ha3
              rw [hb3] at hw3
              have hcc : cid' = cid := by
                have := phaseCid_of_winnerish hw3
                simpa using this.symm
              refine ⟨CallerPhase.winner key cid, hcmem, Or.inl ⟨key, ?_⟩⟩
              rw [hcc]
            · exact ⟨ph3, hold3, hw3⟩
          obtain ⟨ph1', hm1', hw1'⟩ := tr c1 ph1 hm1 hw1
          obtain ⟨ph2', hm2', hw2'⟩ := tr c2 ph2 hm2 hw2
          exact hinv.winner_unique c1 ph1' c2 ph2' cid' hm1' hm2' hw1' hw2'
        · intro c2 k2 cid2 hmem r hr
          rcases (mem_aset _ _ _ _).1 hmem with he | ⟨hold, hne⟩
          · simp at he
          · rcases (mem_aset _ _ _ _).1 hr with her | ⟨holdr, -⟩
            · injection her with her1 her2
              subst her1
              have : c2 = c := hinv.winner_unique c2 (CallerPhase.winner k2 cid2) c
                (CallerPhase.winner key cid2) cid2 hold hcmem
                (Or.inl ⟨k2, rfl⟩) (Or.inl ⟨key, rfl⟩)
              exact hne this
            · exact hinv.winner_no_result _ _ _ hold r holdr
        · intro c2 cid2 v2 e2 hmem
          rcases (mem_aset _ _ _ _).1 hmem with he | ⟨hold, -⟩
          · simp at he
          · have holdr := hinv.returned_result _ _ _ _ hold
            by_cases hcc : cid2 = cid
            · subst hcc
              exact absurd holdr (hinv.winner_no_result _ _ _ hcmem (v2, e2))
            · exact (mem_aset _ _ _ _).2 (Or.inr ⟨holdr, hcc⟩)
        · intro c2 cid2 hmem cid3 hex
          rcases (mem_aset _ _ _ _).1 hmem with he | ⟨hold, -⟩
          · simp at he
          · exact hinv.waiter_no_exec _ _ hold cid3 hex
        · intro p hp
          exact keys_mem_aset _ _ _ (hinv.execs_callers p hp)
    | finishedFn key cid => simp at hstep
    | waiter cid => simp at hstep
    | returned cid v2 e2 => simp at hstep

theorem sfStep_inv_cleanup {s s' : SFState} {c : Nat} (hinv : SFInv s)
    (hstep : sfStep s (SFEvent.cleanup c) = some s') : SFInv s' := by
  simp only [sfStep] at hstep
  rcases hc : alookup c s.callers with _ | ph
  · rw [hc] at hstep
    simp at hstep
  · rw [hc] at hstep
    cases ph with
    | winner key cid => simp at hstep
    | waiter cid => simp at hstep
    | returned cid v2 e2 => simp at hstep
    | finishedFn key cid =>
        rcases hr : alookup cid s.results with _ | r
        · simp [hr] at hstep
        · simp only [hr, Option.some.injEq] at hstep
          subst hstep
          have hcmem : (c, CallerPhase.finishedFn key cid) ∈ s.callers := alookup_mem _ _ _ hc
          have hkc : (key, cid) ∈ s.inflight := hinv.finished_inflight _ _ _ hcmem
          have hcidlt : cid < s.nextId := hinv.phase_bound _ hcmem
          refine ⟨keys_nodup_adel _ _ hinv.inflight_keys,
            keys_nodup_aset _ _ _ hinv.callers_keys, hinv.results_keys, hinv.execs_cids,
            ?_, hinv.results_bound, hinv.execs_bound, ?_, ?_, ?_, ?_, ?_, ?_, ?_, ?_⟩
          · intro p hp
            exact hinv.inflight_bound p ((mem_adel _ _ _).1 hp).1
          · intro p hp
            rcases (mem_aset _ _ _ _).1 hp with he | ⟨hold, -⟩
            · rw [he]
              exact hcidlt
            · exact hinv.phase_bound p hold
          · intro c2 k2 cid2 hmem
            rcases (mem_aset _ _ _ _).1 hmem with he | ⟨hold, -⟩
            · simp at he
            · have hold2 := hinv.winner_inflight _ _ _ hold
              refine (mem_adel _ _ _).2 ⟨hold2, ?_⟩
              intro hkk
              have hpair : ((k2, cid2) : String × Nat) = (key, cid) :=
                mem_eq_of_keys_nodup hinv.inflight_keys hold2 hkc hkk
              injection hpair with _ hcc
              subst hcc
              have hkk2 : k2 = key := hkk
              subst hkk2
              have : c2 = c := hinv.winner_unique c2 (CallerPhase.winner k2 cid2) c
                (CallerPhase.finishedFn k2 cid2) cid2 hold hcmem
                (Or.inl ⟨k2, rfl⟩) (Or.inr ⟨k2, rfl⟩)
              subst this
              have := mem_eq_of_keys_nodup hinv.callers_keys hold hcmem rfl
              simp at this
          · intro c2 k2 cid2 hmem
            rcases (mem_aset _ _ _ _).1 hmem with he | ⟨hold, hne⟩
            · simp at he
            · have hold2 := hinv.finished_inflight _ _ _ hold
              refine (mem_adel _ _ _).2 ⟨hold2, ?_⟩
              intro hkk
              have hpair : ((k2, cid2) : String × Nat) = (key, cid) :=
                mem_eq_of_keys_nodup hinv.inflight_keys hold2 hkc hkk
              injection hpair with _ hcc
              subst hcc
              have hkk2 : k2 = key := hkk
              subst hkk2
              have : c2 = c := hinv.winner_unique c2 (CallerPhase.finishedFn k2 cid2) c
                (CallerPhase.finishedFn k2 cid2) cid2 hold hcmem
                (Or.inr ⟨k2, rfl⟩) (Or.inr ⟨k2, rfl⟩)
              exact hne this
          · intro c1 ph1 c2 ph2 cid' hm1 hm2 hw1 hw2
            rcases (mem_aset _ _ _ _).1 hm1 with he1 | ⟨hold1, -⟩
            · injection he1 with _ hb1
              rw [hb1] at hw1
              rcases hw1 with ⟨k, hk'⟩ | ⟨k, hk'⟩ <;> simp at hk'
            · rcases (mem_aset _ _ _ _).1 hm2 with he2 | ⟨hold2, -⟩
              · injection he2 with _ hb2
                rw [hb2] at hw2
                rcases hw2 with ⟨k, hk'⟩ | ⟨k, hk'⟩ <;> simp at hk'
              · exact hinv.winner_unique c1 ph1 c2 ph2 cid' hold1 hold2 hw1 hw2
          · intro c2 k2 cid2 hmem r2 hr2
            rcases (mem_aset _ _ _ _).1 hmem with he | ⟨hold, -⟩
            · simp at he
            · exact hinv.winner_no_result _ _ _ hold r2 hr2
          · intro c2 cid2 v2 e2 hmem
            rcases (mem_aset _ _ _ _).1 hmem with he | ⟨hold, -⟩
            · injection he with _ he2
              injection he2 with he2a he2b he2c
              subst he2a
              subst he2b
              subst he2c
              rw [Prod.mk.eta]
              exact alookup_mem _ _ _ hr
            · exact hinv.returned_result _ _ _ _ hold
          · intro c2 cid2 hmem cid3 hex
            rcases (mem_aset _ _ _ _).1 hmem with he | ⟨hold, -⟩
            · simp at he
            · exact hinv.waiter_no_exec _ _ hold cid3 hex
          · intro p hp
            exact keys_mem_aset _ _ _ (hinv.execs_callers p hp)

theorem sfStep_inv_waiterReturn {s s' : SFState} {c : Nat} (hinv : SFInv s)
    (hstep : sfStep s (SFEvent.waiterReturn c) = some s') : SFInv s' := by
  simp only [sfStep] at hstep
  rcases hc : alookup c s.callers with _ | ph
  · rw [hc] at hstep
    simp at hstep
  · rw [hc] at hstep
    cases ph with
    | winner key cid => simp at hstep
    | finishedFn key cid => simp at hstep
    | returned cid v2 e2 => simp at hstep
    | waiter cid =>
        rcases hr : alookup cid s.results with _ | r
        · simp [hr] at hstep
        · simp only [hr, Option.some.injEq] at hstep
          subst hstep
          have hcmem : (c, CallerPhase.waiter cid) ∈ s.callers := alookup_mem _ _ _ hc
          have hcidlt : cid < s.nextId := hinv.phase_bound _ hcmem
          refine ⟨hinv.inflight_keys, keys_nodup_aset _ _ _ hinv.callers_keys,
            hinv.results_keys, hinv.execs_cids, hinv.inflight_bound, hinv.results_bound,
            hinv.execs_bound, ?_, ?_, ?_, ?_, ?_, ?_, ?_, ?_⟩
          · intro p hp
            rcases (mem_aset _ _ _ _).1 hp with he | ⟨hold, -⟩
            · rw [he]
              exact hcidlt
            · exact hinv.phase_bound p hold
          · intro c2 k2 cid2 hmem
            rcases (mem_aset _ _ _ _).1 hmem with he | ⟨hold, -⟩
            · simp at he
            · exact hinv.winner_inflight _ _ _ hold
          · intro c2 k2 cid2 hmem
            rcases (mem_aset _ _ _ _).1 hmem with he | ⟨hold, -⟩
            · simp at he
            · exact hinv.finished_inflight _ _ _ hold
          · intro c1 ph1 c2 ph2 cid' hm1 hm2 hw1 hw2
            rcases (mem_aset _ _ _ _).1 hm1 with he1 | ⟨hold1, -⟩
            · injection he1 with _ hb1
              rw [hb1] at hw1
              rcases hw1 with ⟨k, hk'⟩ | ⟨k, hk'⟩ <;> simp at hk'
            · rcases (mem_aset _ _ _ _).1 hm2 with he2 | ⟨hold2, -⟩
              · injection he2 with _ hb2
                rw [hb2] at hw2
                rcases hw2 with ⟨k, hk'⟩ | ⟨k, hk'⟩ <;> simp at hk'
              · exact hinv.winner_unique c1 ph1 c2 ph2 cid' hold1 hold2 hw1 hw2
          · intro c2 k2 cid2 hmem r2 hr2
            rcases (mem_aset _ _ _ _).1 hmem with he | ⟨hold, -⟩
            · simp at he
            · exact hinv.winner_no_result _ _ _ hold r2 hr2
          · intro c2 cid2 v2 e2 hmem
            rcases (mem_aset _ _ _ _).1 hmem with he | ⟨hold, -⟩
            · injection he with _ he2
              injection he2 with he2a he2b he2c
              subst he2a
              subst he2b
              subst he2c
              rw [Prod.mk.eta]
              exact alookup_mem _ _ _ hr
            · exact hinv.returned_result _ _ _ _ hold
          · intro c2 cid2 hmem cid3 hex
            rcases (mem_aset _ _ _ _).1 hmem with he | ⟨hold, -⟩
            · simp at he
            · exact hinv.waiter_no_exec _ _ hold cid3 hex
          · intro p hp
            exact keys_mem_aset _ _ _ (hinv.execs_callers p hp)

theorem sfStep_inv {s s' : SFState} {e : SFEvent} (hinv : SFInv s)
    (hstep : sfStep s e = some s') : SFInv s' := by
  cases e with
  | doEnter c key => exact sfStep_inv_doEnter hinv hstep
  | fnReturn c v er => exact sfStep_inv_fnReturn hinv hstep
  | cleanup c => exact sfStep_inv_cleanup hinv hstep
  | waiterReturn c => exact sfStep_inv_waiterReturn hinv hstep

theorem sfRunFrom_inv {s s' : SFState} (es : List SFEvent) (hinv : SFInv s)
    (hrun : sfRunFrom s es = some s') : SFInv s' := by
  induction es generalizing s with
  | nil =>
      simp only [sfRunFrom, Option.some.injEq] at hrun
      exact hrun ▸ hinv
  | cons e rest ih =>
      simp only [sfRunFrom] at hrun
      rcases hstep : sfStep s e with _ | s1
      · rw [hstep] at hrun
        simp at hrun
      · rw [hstep] at hrun
        exact ih (sfStep_inv hinv hstep) hrun

/-- C2: in every reachable state of the SingleFlight machine, (a) at most
one in-flight record exists per key; (b) each record's fn is executed at
most once over the whole run, and only by the caller that created the
record - a caller that found an existing record (a waiter) never appears in
the execution log; (c) while a caller owns a record (fn running or just
returned) the record is still in the map, so the record is removed only
after the winning fn returns; (d) a caller that returned from waiting holds
exactly the value and error stored in the record, so all coalesced callers
of one record return identical results. -/
theorem singleflight_do_dedup (es : List SFEvent) (s : SFState)
    (h : sfRun es = some s) :
    (s.inflight.map Prod.fst).Nodup ∧
    (s.execs.map Prod.snd).Nodup ∧
    (∀ c key cid,
      (c, CallerPhase.winner key cid) ∈ s.callers ∨
        (c, CallerPhase.finishedFn key cid) ∈ s.callers → (key, cid) ∈ s.inflight) ∧
    (∀ c cid, (c, CallerPhase.waiter cid) ∈ s.callers → ∀ cid2, (c, cid2) ∉ s.execs) ∧
    (∀ c cid v e,
      (c, CallerPhase.returned cid v e) ∈ s.callers → (cid, (v, e)) ∈ s.results) ∧
    (∀ c1 c2 cid v1 e1 v2 e2,
      (c1, CallerPhase.returned cid v1 e1) ∈ s.callers →
      (c2, CallerPhase.returned cid v2 e2) ∈ s.callers → v1 = v2 ∧ e1 = e2) := by
  have hinv : SFInv s := sfRunFrom_inv es sfInit_inv h
  refine ⟨hinv.inflight_keys, hinv.execs_cids, ?_, hinv.waiter_no_exec,
    hinv.returned_result, ?_⟩
  · intro c key cid hc
    rcases hc with hc | hc
    · exact hinv.winner_inflight _ _ _ hc
    · exact hinv.finished_inflight _ _ _ hc
  · intro c1 c2 cid v1 e1 v2 e2 h1 h2
    have hr1 := hinv.returned_result _ _ _ _ h1
    have hr2 := hinv.returned_result _ _ _ _ h2
    have := mem_eq_of_keys_nodup hinv.results_keys hr1 hr2 rfl
    injection this with _ hsnd
    injection hsnd with hv he
    exact ⟨hv, he⟩

/-- A two-caller trace: caller 0 wins, caller 1 coalesces onto the record,
the fn returns (7, no error), the waiter returns, the winner cleans up. -/
def sfTraceW : List SFEvent :=
  [SFEvent.doEnter 0 "k", SFEvent.doEnter 1 "k", SFEvent.fnReturn 0 7 false,
   SFEvent.waiterReturn 1, SFEvent.cleanup 0]

/-- The state that trace reaches. -/
def sfStateW : SFState :=
  ⟨[], [(0, (7, false))],
   [(0, CallerPhase.returned 0 7 false), (1, CallerPhase.returned 0 7 false)],
   [(0, 0)], 1⟩

/-- Witness for C2 at the concrete two-caller trace. -/
theorem singleflight_do_dedup_witness :
    sfRun sfTraceW = some sfStateW ∧
    ((sfStateW.inflight.map Prod.fst).Nodup ∧
     (sfStateW.execs.map Prod.snd).Nodup ∧
     (∀ c key cid,
       (c, CallerPhase.winner key cid) ∈ sfStateW.callers ∨
         (c, CallerPhase.finishedFn key cid) ∈ sfStateW.callers →
         (key, cid) ∈ sfStateW.inflight) ∧
     (∀ c cid, (c, CallerPhase.waiter cid) ∈ sfStateW.callers →
        ∀ cid2, (c, cid2) ∉ sfStateW.execs) ∧
     (∀ c cid v e,
       (c, CallerPhase.returned cid v e) ∈ sfStateW.callers →
         (cid, (v, e)) ∈ sfStateW.results) ∧
     (∀ c1 c2 cid v1 e1 v2 e2,
       (c1, CallerPhase.returned cid v1 e1) ∈ sfStateW.callers →
       (c2, CallerPhase.returned cid v2 e2) ∈ sfStateW.callers →
         v1 = v2 ∧ e1 = e2)) :=
  ⟨by decide, singleflight_do_dedup sfTraceW sfStateW (by decide)⟩
